import Mathlib

/-!
Verification of the hybrid retrieval engine of the ChatBot repository.

The embedding models `src/features/chat/retrieval.py` and
`src/features/documents/chunking.py`.  Strings are modelled as `List Char`,
Python floats produced by cosine similarity as the exact value `d / √n`
(stored as the pair `(d, n)` with `n > 0`) or NaN, and Python's stable
`list.sort` as `List.insertionSort`.  The BM25 library (`rank_bm25`) and the
langchain text splitter are external collaborators and enter the model as
oracle parameters, respectively as a definition modelled from the spec.
-/

set_option autoImplicit false

abbrev Str := List Char

/-- A Python float as produced by `cosine_similarity`: either NaN (from a
zero-magnitude vector) or the exact real value `d / √n` for rationals `d`
and `n`, with `n > 0` in every well-formed use.  Exact rationals `q` are
embedded as `fin q 1`. -/
inductive PyVal where
  | nan : PyVal
  | fin (d : ℚ) (n : ℚ) : PyVal
deriving DecidableEq

/-- Decides `d / √n < d' / √n'` (for positive `n`, `n'`) by sign analysis
and cross-multiplied squares, avoiding irrational square roots. -/
def valLtB (d n d' n' : ℚ) : Bool :=
  if d < 0 then
    (if d' < 0 then decide (d' * d' * n < d * d * n') else true)
  else
    (if d' < 0 then false else decide (d * d * n' < d' * d' * n))

/-- Python `x < y`: false whenever either side is NaN. -/
def pyLt : PyVal → PyVal → Bool
  | .fin d n, .fin d' n' => valLtB d n d' n'
  | _, _ => false

/-- Python `x >= y`: false whenever either side is NaN, otherwise the
negation of `<` on the real values. -/
def pyGe : PyVal → PyVal → Bool
  | .fin d n, .fin d' n' => ! valLtB d n d' n'
  | _, _ => false

/-- Python `x > y`. -/
def pyGt (a b : PyVal) : Bool := pyLt b a

/-- Embeds an exact rational as a Python float value. -/
def ratv (q : ℚ) : PyVal := .fin q 1

/-- Well-formedness: the value is not NaN and its radicand is positive. -/
def PyVal.IsVal : PyVal → Prop
  | .nan => False
  | .fin _ n => 0 < n

instance : DecidablePred PyVal.IsVal := by
  intro v; cases v <;> simp [PyVal.IsVal] <;> infer_instance

/-- The signed square `d * |d| / n`, a strictly monotone image of
`d / √n` for `n > 0`; comparisons of well-formed `PyVal`s agree with
rational comparisons of `gval`. -/
def gval (d n : ℚ) : ℚ := d * |d| / n

/-- `gv` extends `gval` to `PyVal` (NaN is given an arbitrary value; it is
never used for NaN). -/
def gv : PyVal → ℚ
  | .nan => 0
  | .fin d n => gval d n

/-! ### Data model (`retrieval.py`) -/

/-- A chunk record as fetched from the store; `embedding` is `none` when the
field is absent (and `some []` models an empty embedding list, which Python's
falsiness check also skips). -/
structure RawChunk where
  id : Str
  document_id : Str
  text : Str
  chunk_index : Nat
  page_number : Option Nat
  embedding : Option (List ℚ)
deriving DecidableEq

/-- A chunk after vector scoring (the dict built at retrieval.py:93-102). -/
structure ScoredChunk where
  id : Str
  document_id : Str
  text : Str
  chunk_index : Nat
  page_number : Option Nat
  vector_score : PyVal
deriving DecidableEq

instance : Inhabited ScoredChunk := ⟨⟨[], [], [], 0, none, ratv 0⟩⟩

/-- A scored chunk with its BM25 score attached (retrieval.py:142-143). -/
structure ScoredB extends ScoredChunk where
  bm25_score : ℚ
deriving DecidableEq

instance : Inhabited ScoredB := ⟨⟨default, 0⟩⟩

/-- A chunk with the fused RRF score attached (retrieval.py:172). -/
structure HybChunk extends ScoredB where
  score : PyVal
deriving DecidableEq

/-- An entry of the list sorted at retrieval.py:120 (`score` key plus the
internal fields still present before they are popped). -/
structure PreEntry extends ScoredChunk where
  score : PyVal
deriving DecidableEq

/-- A returned result after the internal scoring fields are popped
(retrieval.py:122-127). -/
structure ResultEntry where
  id : Str
  document_id : Str
  text : Str
  chunk_index : Nat
  page_number : Option Nat
  score : PyVal
deriving DecidableEq

def hybToPre (c : HybChunk) : PreEntry := ⟨c.toScoredChunk, c.score⟩

def vecToPre (c : ScoredChunk) : PreEntry := ⟨c, c.vector_score⟩

def preToResult (c : PreEntry) : ResultEntry :=
  ⟨c.id, c.document_id, c.text, c.chunk_index, c.page_number, c.score⟩

/-! ### Vector scorer -/

/-- `np.dot` on two rational vectors (0 on the empty tail, as numpy's dot of
empty arrays is 0). -/
def dotQ : List ℚ → List ℚ → ℚ
  | a :: as, b :: bs => a * b + dotQ as bs
  | _, _ => 0

/-- Squared Euclidean norm. -/
def sumsq (l : List ℚ) : ℚ := dotQ l l

/-- `cosine_similarity` (retrieval.py:37-41), with numpy semantics made
explicit: a length mismatch makes `np.dot` raise `ValueError` (modelled as
`Except.error`), and a zero-magnitude factor makes the division `0.0/0.0`,
i.e. NaN.  Otherwise the value is `dot / √(sumsq a * sumsq b)`. -/
def cosine_similarity (a b : List ℚ) : Except Unit PyVal :=
  if a.length ≠ b.length then .error ()
  else if sumsq a * sumsq b = 0 then .ok .nan
  else .ok (.fin (dotQ a b) (sumsq a * sumsq b))

/-- The vector-scoring loop of `search` (retrieval.py:87-102): chunks with a
missing or empty embedding are skipped; any raised `ValueError` aborts the
whole call. -/
def computeScored (q : List ℚ) : List RawChunk → Except Unit (List ScoredChunk)
  | [] => .ok []
  | c :: rest =>
    match c.embedding with
    | none => computeScored q rest
    | some e =>
      if e = [] then computeScored q rest
      else
        match cosine_similarity q e with
        | .error u => .error u
        | .ok v =>
          match computeScored q rest with
          | .error u => .error u
          | .ok tail =>
            .ok ({ id := c.id, document_id := c.document_id, text := c.text,
                   chunk_index := c.chunk_index, page_number := c.page_number,
                   vector_score := v } :: tail)

/-! ### Tokenizer -/

/-- A regex word character (`\w`), restricted to the ASCII range of Lean's
`Char.isAlphanum`; the Unicode extension is immaterial to the claims. -/
def isWordChar (c : Char) : Bool := c.isAlphanum || c = '_'

/-- The stopword set of retrieval.py:24-28 (a `frozenset`, so the duplicate
literal `"to"` is harmless). -/
def _STOPWORDS : List Str :=
  ["a", "v", "s", "na", "to", "je", "z", "o", "k", "i", "se", "do",
   "za", "od", "po", "pro", "ale", "by", "tak", "si", "co", "jak",
   "ze", "ve", "the", "is", "and", "of", "in", "to", "for", "it"].map
    String.toList

/-- Maximal runs of word characters, as `re.findall` with a word pattern. -/
def wordsOf : Str → List Str
  | [] => []
  | c :: rest =>
    if isWordChar c then
      (c :: rest.takeWhile isWordChar) :: wordsOf (rest.dropWhile isWordChar)
    else wordsOf rest
termination_by l => l.length
decreasing_by
  · have := (List.dropWhile_sublist isWordChar (l := rest)).length_le
    simp; omega
  · simp

/-- `_tokenize` (retrieval.py:31-34). -/
def _tokenize (text : Str) : List Str :=
  (wordsOf (text.map Char.toLower)).filter
    (fun w => !(_STOPWORDS.contains w) && decide (1 < w.length))

/-! ### Hybrid RRF search -/

/-- Vector score of the chunk at index `i` (out-of-range indices yield the
default chunk, whose score is the well-formed value 0). -/
def vsAt (l : List ScoredB) (i : Nat) : PyVal := (l.getD i default).vector_score

/-- BM25 score of the chunk at index `i`. -/
def bsAt (l : List ScoredB) (i : Nat) : ℚ := (l.getD i default).bm25_score

/-- Chunk id at index `i`. -/
def idAt (l : List ScoredB) (i : Nat) : Str := (l.getD i default).id

/-- Comparison used by `sorted(..., key=vector_score, reverse=True)`:
index `i` sorts no later than `j` when its vector score is `>=` (Python
float comparison). -/
def vRel (l : List ScoredB) (i j : Nat) : Prop := pyGe (vsAt l i) (vsAt l j) = true

instance (l : List ScoredB) : DecidableRel (vRel l) := fun _ _ => by
  unfold vRel; infer_instance

/-- Comparison used by `sorted(..., key=bm25_score, reverse=True)`. -/
def bRel (l : List ScoredB) (i j : Nat) : Prop := bsAt l j ≤ bsAt l i

instance (l : List ScoredB) : DecidableRel (bRel l) := fun _ _ => by
  unfold bRel; infer_instance

/-- `vector_ranked` (retrieval.py:146-150): indices sorted by vector score
descending; Python's sort is stable, modelled by `insertionSort`. -/
def vector_ranked (l : List ScoredB) : List Nat :=
  (List.range l.length).insertionSort (vRel l)

/-- `bm25_ranked` (retrieval.py:151-155). -/
def bm25_ranked (l : List ScoredB) : List Nat :=
  (List.range l.length).insertionSort (bRel l)

/-- Functional model of the `rrf_scores` dict: update binds a key to a
value, shadowing any earlier binding. -/
def dictUpd (m : Str → Option ℚ) (k : Str) (v : ℚ) : Str → Option ℚ :=
  fun k' => if k' = k then some v else m k'

/-- `rrf_scores.get(chunk_id, 0)`. -/
def dGet0 (m : Str → Option ℚ) (k : Str) : ℚ := (m k).getD 0

/-- First RRF loop (retrieval.py:160-162): `enumerate(vector_ranked)` is
modelled by the explicit 0-based `rank` counter; each id's score is set to
`1/(k + rank + 1)` (overwriting, as in the source). -/
def rrfFold1 (l : List ScoredB) (rank : Nat) :
    List Nat → (Str → Option ℚ) → (Str → Option ℚ)
  | [], m => m
  | idx :: rest, m =>
    rrfFold1 l (rank + 1) rest (dictUpd m (idAt l idx) (1 / (60 + (rank : ℚ) + 1)))

/-- Second RRF loop (retrieval.py:163-167): add `1/(k + rank + 1)` to the
id's current score (default 0). -/
def rrfFold2 (l : List ScoredB) (rank : Nat) :
    List Nat → (Str → Option ℚ) → (Str → Option ℚ)
  | [], m => m
  | idx :: rest, m =>
    rrfFold2 l (rank + 1) rest
      (dictUpd m (idAt l idx) (dGet0 m (idAt l idx) + 1 / (60 + (rank : ℚ) + 1)))

/-- The fused-score dict after both loops (k = 60). -/
def rrf_scores (l : List ScoredB) : Str → Option ℚ :=
  rrfFold2 l 0 (bm25_ranked l) (rrfFold1 l 0 (vector_ranked l) (fun _ => none))

/-- The loop of retrieval.py:142-143 with `enumerate` modelled by the
explicit counter `i`: attach `bm25_scores[i]` to each chunk. -/
def attachBM25Go (bs : List ℚ) (i : Nat) : List ScoredChunk → List ScoredB
  | [] => []
  | c :: rest => ⟨c, bs.getD i 0⟩ :: attachBM25Go bs (i + 1) rest

/-- Attaching the BM25 scores returned by the external `BM25Okapi` library
to the scored chunks (retrieval.py:142-143); `rank_bm25` returns one score
per corpus document. -/
def attachBM25 (scored : List ScoredChunk) (bs : List ℚ) : List ScoredB :=
  attachBM25Go bs 0 scored

/-- `chunk["score"] = rrf_scores.get(chunk["id"], 0)` for every candidate
(retrieval.py:171-172). -/
def attachRRF (l : List ScoredB) : List HybChunk :=
  l.map (fun c => ⟨c, ratv (dGet0 (rrf_scores l) c.id)⟩)

/-- The inclusion test of retrieval.py:175-179: vector score above the
primary threshold, or a strictly positive keyword score together with a
vector score above the secondary floor 0.2. -/
def hybridFilter (ms : ℚ) (c : HybChunk) : Bool :=
  pyGe c.vector_score (ratv ms) ||
    (decide (0 < c.bm25_score) && pyGe c.vector_score (ratv (1/5)))

/-- `_hybrid_rrf_search` (retrieval.py:129-182).  The external BM25 library
is the oracle parameter `bm25get`, invoked on the tokenized corpus and
query exactly as in the source. -/
def _hybrid_rrf_search (bm25get : List (List Str) → List Str → List ℚ)
    (scored : List ScoredChunk) (query : Str) (ms : ℚ) : List HybChunk :=
  let corpus := scored.map (fun c => _tokenize c.text)
  let qt := _tokenize query
  let withB := attachBM25 scored (bm25get corpus qt)
  (attachRRF withB).filter (fun c => hybridFilter ms c)

/-! ### The public `search` entry point -/

/-- Sort key relation of retrieval.py:120 (`key=score, reverse=True`). -/
def sRel (a b : PreEntry) : Prop := pyGe a.score b.score = true

instance : DecidableRel sRel := fun _ _ => by unfold sRel; infer_instance

/-- `search` up to but excluding the final `[:top_k]` slice
(retrieval.py:55-126): embed-and-score, branch into the hybrid or the
vector-only path, sort by score descending (stable), pop internal fields. -/
def searchRanked (q : List ℚ) (chunks : List RawChunk) (hasBM25 : Bool)
    (bm25get : List (List Str) → List Str → List ℚ) (query : Str)
    (ms : ℚ) : Except Unit (List ResultEntry) :=
  if chunks = [] then .ok []
  else
    match computeScored q chunks with
    | .error u => .error u
    | .ok scored =>
      if scored = [] then .ok []
      else
        let pres :=
          if hasBM25 && decide (1 < scored.length) then
            (_hybrid_rrf_search bm25get scored query ms).map hybToPre
          else
            (scored.filter (fun c => pyGe c.vector_score (ratv ms))).map vecToPre
        .ok ((pres.insertionSort sRel).map preToResult)

/-- Python's `results[:top_k]` for an `int` that may be negative. -/
def pySlice {α : Type} (k : Int) (l : List α) : List α :=
  if 0 ≤ k then l.take k.toNat else l.take (l.length - (-k).toNat)

/-- The public `search` (retrieval.py:55-127): ranked results truncated by
the Python slice `results[:top_k]`. -/
def search (q : List ℚ) (chunks : List RawChunk) (hasBM25 : Bool)
    (bm25get : List (List Str) → List Str → List ℚ) (query : Str)
    (top_k : Int) (ms : ℚ) : Except Unit (List ResultEntry) :=
  match searchRanked q chunks hasBM25 bm25get query ms with
  | .error u => .error u
  | .ok results => .ok (pySlice top_k results)

/-! ### Context assembly (`build_context`, retrieval.py:184-210) -/

/-- Python's `sep.join(parts)`. -/
def pyJoin (sep : Str) : List Str → Str
  | [] => []
  | [x] => x
  | x :: xs => x ++ sep ++ pyJoin sep xs

/-- The delimiter `"\n\n---\n\n"` between context parts. -/
def bcSep : Str := "\n\n---\n\n".toList

/-- The label `"[Source N]\n"` prepended to a chunk's text. -/
def bcLabel (n : Nat) : Str :=
  "[Source ".toList ++ Nat.toDigits 10 n ++ "]\n".toList

/-- One context part: label (from `chunk_index + 1`) plus chunk text. -/
def bcPart (c : ResultEntry) : Str := bcLabel (c.chunk_index + 1) ++ c.text

/-- The greedy selection loop of `build_context`: running total of text
lengths, stop at the first chunk that would exceed `maxc`. -/
def bcTake (maxc : Nat) : Nat → List ResultEntry → List ResultEntry
  | _, [] => []
  | tot, c :: rest =>
    if maxc < tot + c.text.length then []
    else c :: bcTake maxc (tot + c.text.length) rest

/-- `build_context` (retrieval.py:184-210); the budget is
`max_tokens * 4` characters. -/
def build_context (chunks : List ResultEntry) (max_tokens : Nat) : Str :=
  if chunks = [] then []
  else pyJoin bcSep ((bcTake (max_tokens * 4) 0 chunks).map bcPart)

/-- Sum of the text lengths of a chunk list (spec-side, for the budget
bound). -/
def sumTexts (l : List ResultEntry) : Nat := (l.map (fun c => c.text.length)).sum

/-- The label-plus-separator overhead a chunk contributes beyond its text
(spec-side, for the budget bound). -/
def bcOverhead (c : ResultEntry) : Nat := (bcLabel (c.chunk_index + 1)).length + bcSep.length

/-! ### Chunking strategy factory (`chunking.py:161-186`) -/

/-- The strategy value built by `get_chunking_strategy`, with the
constructor parameters the factory passes. -/
inductive ChunkStrat where
  | recursive (chunk_size chunk_overlap : Nat)
  | sentence (chunk_size chunk_overlap : Nat)
  | semantic (min_chunk_size max_chunk_size : Nat)
deriving DecidableEq

/-- `get_chunking_strategy` (chunking.py:161-186): dictionary lookup with
`strategies.get(strategy, strategies["recursive"])` as the fallback. -/
def get_chunking_strategy (strategy : Str) (chunk_size chunk_overlap : Nat) :
    ChunkStrat :=
  if strategy = "recursive".toList then .recursive chunk_size chunk_overlap
  else if strategy = "sentence".toList then .sentence chunk_size chunk_overlap
  else if strategy = "semantic".toList then .semantic 200 chunk_size
  else .recursive chunk_size chunk_overlap

/-! ### Concrete fixtures for witnesses and counterexamples -/

/-- A chunk whose embedding matches a 2-dimensional query exactly. -/
def fixA : RawChunk := ⟨"A".toList, "doc".toList, "alpha".toList, 0, none, some [1, 0]⟩

/-- A chunk at 45 degrees to the query `[1, 0]`. -/
def fixB : RawChunk := ⟨"B".toList, "doc".toList, "beta".toList, 1, none, some [1, 1]⟩

/-- A chunk whose 2-dimensional embedding mismatches a 1-dimensional query. -/
def fixMism : RawChunk := ⟨"M".toList, "doc".toList, "mu".toList, 2, none, some [1, 1]⟩

/-- A chunk with a 1-dimensional embedding. -/
def fixC1 : RawChunk := ⟨"C".toList, "doc".toList, "gamma".toList, 0, none, some [1]⟩

/-- A constant BM25 oracle: score 2 for the first corpus document, 1 for
the second. -/
def fixBM : List (List Str) → List Str → List ℚ := fun _ _ => [2, 1]

/-- Spec-side greedy count: how many leading chunks the `build_context`
loop includes under budget `maxc` starting from running total `tot`. -/
def greedyCount (maxc : Nat) : Nat → List ResultEntry → Nat
  | _, [] => 0
  | tot, c :: rest =>
    if maxc < tot + c.text.length then 0
    else greedyCount maxc (tot + c.text.length) rest + 1

/-- Candidate `j` is strictly ahead of candidate `i` in the
vector-score-descending ordering with ties broken by stable input order:
strictly greater score, or equal score and earlier input position. -/
def vAhead (l : List ScoredB) (j i : Nat) : Bool :=
  pyGt (vsAt l j) (vsAt l i) ||
    (pyGe (vsAt l j) (vsAt l i) && pyGe (vsAt l i) (vsAt l j) && decide (j < i))

/-- Candidate `j` is strictly ahead of candidate `i` in the
BM25-score-descending ordering, ties broken by stable input order. -/
def bAhead (l : List ScoredB) (j i : Nat) : Bool :=
  decide (bsAt l i < bsAt l j) || (decide (bsAt l j = bsAt l i) && decide (j < i))

/-- Claim-side 1-based rank of index `i` in the vector-score-descending
ordering of the candidate set (ties broken by stable input order): one plus
the number of candidates strictly ahead of `i`. -/
def rankV (l : List ScoredB) (i : Nat) : Nat :=
  1 + ((List.range l.length).filter (fun j => vAhead l j i)).length

/-- Claim-side 1-based rank of index `i` in the BM25-score-descending
ordering, ties broken by stable input order. -/
def rankB (l : List ScoredB) (i : Nat) : Nat :=
  1 + ((List.range l.length).filter (fun j => bAhead l j i)).length

/-- A concrete scored candidate list (chunk B first, then chunk A). -/
def fixScored : List ScoredChunk :=
  [⟨"B".toList, "doc".toList, "beta".toList, 1, none, PyVal.fin 1 2⟩,
   ⟨"A".toList, "doc".toList, "alpha".toList, 0, none, PyVal.fin 1 1⟩]

/-- The concrete candidate list with BM25 scores attached by `fixBM`. -/
def fixWb : List ScoredB :=
  attachBM25 fixScored
    (fixBM (fixScored.map fun s => _tokenize s.text) (_tokenize "q".toList))

/-! ### Chunking strategies (`chunking.py`) -/

/-- Python whitespace (`\s` and `str.strip`), restricted to its ASCII
members: space, tab, newline, carriage return, vertical tab, form feed. -/
def isWS (c : Char) : Bool :=
  c = ' ' || c = '\t' || c = '\n' || c = '\r' || c = '\x0b' || c = '\x0c'

/-- The non-whitespace content of a string (spec-side: the chunker contract
compares input and output up to whitespace). -/
def nws (s : Str) : Str := s.filter (fun c => !isWS c)

/-- Non-whitespace content of a list of strings, concatenated (spec-side). -/
def nwsJ (l : List Str) : Str := (l.map nws).flatten

/-- Python's `str.strip()`. -/
def pyStrip (s : Str) : Str := ((s.dropWhile isWS).reverse.dropWhile isWS).reverse

/-- A produced chunk: `{"text": ..., "chunk_index": ..., "strategy": ...}`. -/
structure DocChunk where
  text : Str
  chunk_index : Nat
  strategy : Str
deriving DecidableEq

/-- Sentence-ending punctuation, the lookbehind class `[.!?]` applied to the
previously consumed character (none at the start of a piece). -/
def endPunct : Option Char → Bool
  | some c => c = '.' || c = '!' || c = '?'
  | none => false

/-- The lookahead class `[A-ZÁČĎÉĚÍŇÓŘŠŤÚŮÝŽ]` (chunking.py:46). -/
def isUpperCz (c : Char) : Bool :=
  ('A' ≤ c && c ≤ 'Z') || "ÁČĎÉĚÍŇÓŘŠŤÚŮÝŽ".toList.contains c

/-- Scanner for `re.split(r'(?<=[.!?])\s+(?=[A-Z...])', text)` (chunking.py:46):
cut at a maximal whitespace run that follows sentence-ending punctuation and
is followed by an uppercase letter; `acc` is the current piece, reversed. -/
def ssGo (acc : Str) : Str → List Str
  | [] => [acc.reverse]
  | c :: rest =>
    if h : endPunct acc.head? ∧ isWS c then
      if ((((c :: rest).dropWhile isWS).head?.map isUpperCz).getD false) then
        acc.reverse :: ssGo [] ((c :: rest).dropWhile isWS)
      else ssGo (c :: acc) rest
    else ssGo (c :: acc) rest
termination_by l => l.length
decreasing_by
  · have h1 : (c :: rest).dropWhile isWS = rest.dropWhile isWS :=
      List.dropWhile_cons_of_pos h.2
    have h2 := (List.dropWhile_sublist (l := rest) isWS).length_le
    simp only [h1]
    simp only [List.length_cons]
    omega
  · simp
  · simp

/-- `re.split` of the sentence pattern (chunking.py:46). -/
def splitSentences (text : Str) : List Str := ssGo [] text

/-- The overlap carry-back loop of `SentenceChunking.chunk`
(chunking.py:65-72): pop trailing sentences (first argument: the current
chunk reversed) while `len(overlap_text) < chunk_overlap`; each pop puts
`s + " " + overlap_text` in front. Returns the kept sentences in order and
the final `len(overlap_text)`. -/
def ovLoop (ov : Nat) : List Str → List Str → Nat → List Str × Nat
  | [], os, olen => (os, olen)
  | s :: rest, os, olen =>
    if olen < ov then ovLoop ov rest (s :: os) (olen + s.length + 1)
    else (os, olen)

/-- Flushing the current sentence chunk (chunking.py:58-63 and 77-82): join
with single spaces, `chunk_index = len(chunks)`; no-op on an empty current
chunk. -/
def sentFlush (chunks : List DocChunk) (cur : List Str) : List DocChunk :=
  if cur = [] then chunks
  else chunks ++ [⟨pyJoin [' '] cur, chunks.length, "sentence".toList⟩]

/-- The sentence-packing loop of `SentenceChunking.chunk` (chunking.py:52-82),
including the final flush; each sentence is stripped and skipped if empty,
and `current_length` grows by `len(sentence) + 1`. In the overflow branch the
current chunk is nonempty, so `sentFlush` appends it. -/
def sentLoop (size ov : Nat) (chunks : List DocChunk) (cur : List Str)
    (clen : Nat) : List Str → List DocChunk
  | [] => sentFlush chunks cur
  | s :: ss =>
    if pyStrip s = [] then sentLoop size ov chunks cur clen ss
    else if size < clen + (pyStrip s).length ∧ cur ≠ [] then
      sentLoop size ov (sentFlush chunks cur)
        ((ovLoop ov cur.reverse [] 0).1 ++ [pyStrip s])
        ((ovLoop ov cur.reverse [] 0).2 + (pyStrip s).length + 1) ss
    else sentLoop size ov chunks (cur ++ [pyStrip s])
      (clen + (pyStrip s).length + 1) ss

/-- `SentenceChunking.chunk` (chunking.py:43-84). -/
def sentenceChunk (size ov : Nat) (text : Str) : List DocChunk :=
  sentLoop size ov [] [] 0 (splitSentences text)

/-- Split a string at its last newline: `some (a, b)` with the input equal to
`a ++ b` and `a` ending in the last `'\n'`; `none` when there is no newline
(helper for the greedy `\s*` of the paragraph separator `\n\s*\n`). -/
def takeToLastNl : (l : Str) → Option { p : Str × Str // l = p.1 ++ p.2 ∧ p.1 ≠ [] }
  | [] => none
  | c :: rest =>
    match takeToLastNl rest with
    | some ⟨(a, b), h⟩ => some ⟨(c :: a, b), by refine ⟨?_, by simp⟩; simp [h.1]⟩
    | none => if c = '\n' then some ⟨([c], rest), by simp⟩ else none

/-- Scanner for `re.split(r'\n\s*\n', text)` (chunking.py:96): cut at a
newline whose following whitespace run contains another newline; the greedy
`\s*` puts everything up to and including the run's last newline into the
separator. -/
def spGo (acc : Str) : Str → List Str
  | [] => [acc.reverse]
  | c :: rest =>
    if c = '\n' then
      match takeToLastNl (rest.takeWhile isWS) with
      | some p => acc.reverse :: spGo [] (p.val.2 ++ rest.dropWhile isWS)
      | none => spGo (c :: acc) rest
    else spGo (c :: acc) rest
termination_by l => l.length
decreasing_by
  · have h1 := p.property
    have h2 : (rest.takeWhile isWS).length + (rest.dropWhile isWS).length
        = rest.length := by
      rw [← List.length_append, List.takeWhile_append_dropWhile]
    have h3 : p.val.1.length + p.val.2.length = (rest.takeWhile isWS).length := by
      rw [← List.length_append, ← h1.1]
    have h4 : 0 < p.val.1.length := List.length_pos.mpr h1.2
    simp only [List.length_append, List.length_cons]
    omega
  · simp
  · simp

/-- `re.split(r'\n\s*\n', text)` (chunking.py:96). -/
def splitParas (text : Str) : List Str := spGo [] text

/-- Scanner for the inner `re.split(r'(?<=[.!?])\s+', para)` (chunking.py:120):
the sentence pattern without the uppercase lookahead. -/
def sbGo (acc : Str) : Str → List Str
  | [] => [acc.reverse]
  | c :: rest =>
    if h : endPunct acc.head? ∧ isWS c then
      acc.reverse :: sbGo [] ((c :: rest).dropWhile isWS)
    else sbGo (c :: acc) rest
termination_by l => l.length
decreasing_by
  · have h1 : (c :: rest).dropWhile isWS = rest.dropWhile isWS :=
      List.dropWhile_cons_of_pos h.2
    have h2 := (List.dropWhile_sublist (l := rest) isWS).length_le
    simp only [h1, List.length_cons]
    omega
  · simp

/-- The inner sentence loop for an oversized paragraph (chunking.py:121-133):
pack raw (unstripped) sentences into `temp_chunk` flushing at `max_size`;
returns the updated chunk list, the leftover `temp_chunk` and `temp_length`
(which counts characters without join separators). -/
def semInner (mx : Nat) : List DocChunk → List Str → Nat → List Str →
    List DocChunk × List Str × Nat
  | chunks, temp, tlen, [] => (chunks, temp, tlen)
  | chunks, temp, tlen, s :: ss =>
    if mx < tlen + s.length ∧ temp ≠ [] then
      semInner mx
        (chunks ++ [⟨pyJoin [' '] temp, chunks.length, "semantic".toList⟩])
        [s] s.length ss
    else semInner mx chunks (temp ++ [s]) (tlen + s.length) ss

/-- Flushing the current semantic chunk (chunking.py:110-117, 139-146,
151-156): join with blank lines, `chunk_index = len(chunks)`; no-op on an
empty current chunk. -/
def semFlush (chunks : List DocChunk) (cur : List Str) : List DocChunk :=
  if cur = [] then chunks
  else chunks ++ [⟨pyJoin "\n\n".toList cur, chunks.length, "semantic".toList⟩]

/-- The paragraph loop of `SemanticChunking.chunk` (chunking.py:102-156),
including the final flush. An oversized paragraph first flushes the current
chunk, then runs the inner sentence loop; the leftover `temp_chunk` (if
nonempty) becomes the new current chunk, with `current_length = temp_length`. -/
def semLoop (mx : Nat) (chunks : List DocChunk) (cur : List Str) (clen : Nat) :
    List Str → List DocChunk
  | [] => semFlush chunks cur
  | p :: ps =>
    if pyStrip p = [] then semLoop mx chunks cur clen ps
    else if mx < (pyStrip p).length then
      let r := semInner mx (semFlush chunks cur) [] 0 (sbGo [] (pyStrip p))
      if r.2.1 = [] then
        semLoop mx r.1 (if cur = [] then cur else [])
          (if cur = [] then clen else 0) ps
      else semLoop mx r.1 [pyJoin [' '] r.2.1] r.2.2 ps
    else if mx < clen + (pyStrip p).length ∧ cur ≠ [] then
      semLoop mx (semFlush chunks cur) [pyStrip p] (pyStrip p).length ps
    else semLoop mx chunks (cur ++ [pyStrip p]) (clen + (pyStrip p).length) ps

/-- `SemanticChunking.chunk` (chunking.py:94-158); `min_chunk_size` is stored
by the constructor but never used. -/
def semanticChunk (mn mx : Nat) (text : Str) : List DocChunk :=
  semLoop mx [] [] 0 (splitParas text)

/-- Modelled from the spec: the fixed-window strategy splits on a
preference-ordered separator list, never splitting mid-separator. This
helper splits at every occurrence of `sep`, keeping each separator attached
to the end of the piece before it, so concatenating the pieces restores the
input; `acc` is the current piece, reversed. -/
def sksGo (sep : Str) (acc : Str) : Str → List Str
  | [] => [acc.reverse]
  | c :: rest =>
    if h : sep ≠ [] ∧ (c :: rest).take sep.length = sep then
      (acc.reverse ++ sep) :: sksGo sep [] ((c :: rest).drop sep.length)
    else sksGo sep (c :: acc) rest
termination_by l => l.length
decreasing_by
  · have h1 : 0 < sep.length := List.length_pos.mpr h.1
    simp only [List.length_drop, List.length_cons]
    omega
  · simp

/-- Modelled from the spec: the preference-ordered separators (paragraph
break, line break, sentence end, space), with single characters as the
final resort. -/
def recSeps : List Str := ["\n\n".toList, "\n".toList, ". ".toList, " ".toList]

/-- Modelled from the spec: pieces exceeding the target size are split
further with the next separator in the preference order; the final resort is
single characters. -/
def recSplitPieces (size : Nat) : List Str → Str → List Str
  | [], text => if text.length ≤ size then [text] else text.map (fun c => [c])
  | sep :: seps, text =>
    if text.length ≤ size then [text]
    else ((sksGo sep [] text).map (fun p => recSplitPieces size seps p)).flatten

/-- Modelled from the spec: overlap carry-back of whole trailing pieces of
the previous window until the configured character overlap is reached
(first argument: the previous window, reversed). -/
def recOv (ov : Nat) : List Str → List Str → Nat → List Str × Nat
  | [], os, olen => (os, olen)
  | s :: rest, os, olen =>
    if olen < ov then recOv ov rest (s :: os) (olen + s.length) else (os, olen)

/-- Modelled from the spec: a finished window is the concatenation of its
pieces (separators stay inside the pieces), stripped; windows that strip to
empty are dropped. -/
def recFlush (out cur : List Str) : List Str :=
  if pyStrip cur.flatten = [] then out else out ++ [pyStrip cur.flatten]

/-- Modelled from the spec: greedily pack the split pieces into windows close
to the target size, carrying back an overlap of whole pieces into the next
window. -/
def recMergeLoop (size ov : Nat) (out cur : List Str) (clen : Nat) :
    List Str → List Str
  | [] => recFlush out cur
  | p :: ps =>
    if size < clen + p.length ∧ cur ≠ [] then
      recMergeLoop size ov (recFlush out cur)
        ((recOv ov cur.reverse [] 0).1 ++ [p])
        ((recOv ov cur.reverse [] 0).2 + p.length) ps
    else recMergeLoop size ov out (cur ++ [p]) (clen + p.length) ps

/-- Modelled from the spec (the source delegates the actual splitting to an
external recursive character splitter): split with the preference-ordered
separators, merge into overlapping windows, and attach `chunk_index` by
enumeration exactly as `RecursiveChunking.chunk` (chunking.py:28-33) does. -/
def recursiveChunk (size ov : Nat) (text : Str) : List DocChunk :=
  (recMergeLoop size ov [] [] 0 (recSplitPieces size recSeps text)).enum.map
    (fun p => ⟨p.2, p.1, "recursive".toList⟩)

/-! ## Theorems -/

/-! ### Order facts for `PyVal` comparisons -/

theorem valLtB_eq_gval {d n d' n' : ℚ} (hn : 0 < n) (hn' : 0 < n') :
    valLtB d n d' n' = decide (gval d n < gval d' n') := by
  unfold valLtB gval
  rcases lt_or_le d 0 with hd | hd <;> rcases lt_or_le d' 0 with hd' | hd'
  · simp only [if_pos hd, if_pos hd', decide_eq_decide]
    rw [abs_of_neg hd, abs_of_neg hd', div_lt_div_iff₀ hn hn']
    constructor <;> intro h <;> nlinarith
  · simp only [if_pos hd, if_neg (not_lt.mpr hd')]
    have h1 : d * |d| / n < 0 := by
      apply div_neg_of_neg_of_pos _ hn
      rw [abs_of_neg hd]; nlinarith
    have h2 : 0 ≤ d' * |d'| / n' := by
      apply div_nonneg _ hn'.le
      rw [abs_of_nonneg hd']; nlinarith
    simp [lt_of_lt_of_le h1 h2]
  · simp only [if_neg (not_lt.mpr hd), if_pos hd']
    have h1 : d' * |d'| / n' < 0 := by
      apply div_neg_of_neg_of_pos _ hn'
      rw [abs_of_neg hd']; nlinarith
    have h2 : 0 ≤ d * |d| / n := by
      apply div_nonneg _ hn.le
      rw [abs_of_nonneg hd]; nlinarith
    simp [not_lt.mpr (le_of_lt (lt_of_lt_of_le h1 h2))]
  · simp only [if_neg (not_lt.mpr hd), if_neg (not_lt.mpr hd'), decide_eq_decide]
    rw [abs_of_nonneg hd, abs_of_nonneg hd', div_lt_div_iff₀ hn hn']

theorem pyLt_iff_gv {a b : PyVal} (ha : a.IsVal) (hb : b.IsVal) :
    pyLt a b = true ↔ gv a < gv b := by
  cases a with
  | nan => exact absurd ha id
  | fin d n =>
    cases b with
    | nan => exact absurd hb id
    | fin d' n' =>
      simp only [pyLt, gv, valLtB_eq_gval ha hb, decide_eq_true_eq]

theorem pyGe_iff_gv {a b : PyVal} (ha : a.IsVal) (hb : b.IsVal) :
    pyGe a b = true ↔ gv b ≤ gv a := by
  cases a with
  | nan => exact absurd ha id
  | fin d n =>
    cases b with
    | nan => exact absurd hb id
    | fin d' n' =>
      simp only [pyGe, valLtB_eq_gval ha hb, Bool.not_eq_true',
        decide_eq_false_iff_not, not_lt, gv]

theorem pyGt_iff_gv {a b : PyVal} (ha : a.IsVal) (hb : b.IsVal) :
    pyGt a b = true ↔ gv b < gv a := pyLt_iff_gv hb ha

@[simp] theorem pyGe_nan_left (b : PyVal) : pyGe .nan b = false := rfl

@[simp] theorem pyGe_nan_right (a : PyVal) : pyGe a .nan = false := by
  cases a <;> rfl

theorem pyGe_total {a b : PyVal} (ha : a.IsVal) (hb : b.IsVal) :
    pyGe a b = true ∨ pyGe b a = true := by
  rw [pyGe_iff_gv ha hb, pyGe_iff_gv hb ha]
  exact (le_total (gv b) (gv a)).imp id id

theorem pyGe_trans {a b c : PyVal} (ha : a.IsVal) (hb : b.IsVal) (hc : c.IsVal)
    (hab : pyGe a b = true) (hbc : pyGe b c = true) : pyGe a c = true := by
  rw [pyGe_iff_gv ha hb] at hab
  rw [pyGe_iff_gv hb hc] at hbc
  rw [pyGe_iff_gv ha hc]
  exact le_trans hbc hab

theorem ratv_isVal (q : ℚ) : (ratv q).IsVal := by
  simp [ratv, PyVal.IsVal]

theorem pyGe_isVal_left {a b : PyVal} (h : pyGe a b = true) : a ≠ .nan := by
  intro hn; subst hn; simp at h

theorem pyGe_isVal_right {a b : PyVal} (h : pyGe a b = true) : b ≠ .nan := by
  intro hn; subst hn; simp at h


/-! ### Evaluation helpers -/

theorem isort_pair {α : Type} (r : α → α → Prop) [DecidableRel r] (a b : α) :
    [a, b].insertionSort r = if r a b then [a, b] else [b, a] := by
  simp [List.insertionSort, List.orderedInsert]

/-! ### Facts about `cosine_similarity` and `computeScored` -/

theorem sumsq_nonneg (l : List ℚ) : 0 ≤ sumsq l := by
  unfold sumsq
  induction l with
  | nil => simp [dotQ]
  | cons x xs ih =>
    have hx : dotQ (x :: xs) (x :: xs) = x * x + dotQ xs xs := rfl
    rw [hx]
    nlinarith

theorem cosine_ok_of_length {q e : List ℚ} (h : q.length = e.length) :
    ∃ v, cosine_similarity q e = .ok v := by
  unfold cosine_similarity
  rw [if_neg (by simp [h])]
  split <;> exact ⟨_, rfl⟩

theorem cosine_error_of_length {q e : List ℚ} (h : q.length ≠ e.length) :
    cosine_similarity q e = .error () := by
  unfold cosine_similarity
  rw [if_pos h]

theorem cosine_ok_isVal_or_nan {q e : List ℚ} {v : PyVal}
    (h : cosine_similarity q e = .ok v) : v = .nan ∨ v.IsVal := by
  unfold cosine_similarity at h
  split at h
  · exact absurd h (by simp)
  · split at h
    · left; injection h with h'; exact h'.symm
    · right
      injection h with h'
      subst h'
      rename_i hne
      have h0 : 0 ≤ sumsq q * sumsq e := mul_nonneg (sumsq_nonneg q) (sumsq_nonneg e)
      exact lt_of_le_of_ne h0 (Ne.symm hne)

theorem computeScored_nil (q : List ℚ) : computeScored q [] = .ok [] := rfl

theorem computeScored_cons_none (q : List ℚ) (c : RawChunk) (rest : List RawChunk)
    (h : c.embedding = none) :
    computeScored q (c :: rest) = computeScored q rest := by
  simp only [computeScored, h]

theorem computeScored_cons_empty (q : List ℚ) (c : RawChunk) (rest : List RawChunk)
    (h : c.embedding = some []) :
    computeScored q (c :: rest) = computeScored q rest := by
  simp [computeScored, h]

theorem computeScored_cons_some (q : List ℚ) (c : RawChunk) (rest : List RawChunk)
    (e : List ℚ) (h : c.embedding = some e) (he : e ≠ []) :
    computeScored q (c :: rest) =
      match cosine_similarity q e with
      | .error u => .error u
      | .ok v =>
        match computeScored q rest with
        | .error u => .error u
        | .ok tail =>
          .ok ({ id := c.id, document_id := c.document_id, text := c.text,
                 chunk_index := c.chunk_index, page_number := c.page_number,
                 vector_score := v } :: tail) := by
  simp only [computeScored, h]
  rw [if_neg he]

theorem computeScored_mem_src {q : List ℚ} {chunks : List RawChunk}
    {scored : List ScoredChunk} (h : computeScored q chunks = .ok scored) :
    ∀ s ∈ scored, ∃ c ∈ chunks, ∃ e, c.embedding = some e ∧ e ≠ [] ∧
      ∃ v, cosine_similarity q e = .ok v ∧
        s = ⟨c.id, c.document_id, c.text, c.chunk_index, c.page_number, v⟩ := by
  induction chunks generalizing scored with
  | nil =>
    rw [computeScored_nil] at h
    injection h with h'
    subst h'
    intro s hs
    exact absurd hs (by simp)
  | cons c rest ih =>
    cases hemb : c.embedding with
    | none =>
      rw [computeScored_cons_none q c rest hemb] at h
      intro s hs
      obtain ⟨c', hc', rest'⟩ := ih h s hs
      exact ⟨c', List.mem_cons_of_mem c hc', rest'⟩
    | some e =>
      by_cases he : e = []
      · subst he
        rw [computeScored_cons_empty q c rest hemb] at h
        intro s hs
        obtain ⟨c', hc', rest'⟩ := ih h s hs
        exact ⟨c', List.mem_cons_of_mem c hc', rest'⟩
      · rw [computeScored_cons_some q c rest e hemb he] at h
        cases hcos : cosine_similarity q e with
        | error u => simp [hcos] at h
        | ok v =>
          simp only [hcos] at h
          cases htail : computeScored q rest with
          | error u => simp [htail] at h
          | ok tail =>
            simp only [htail, Except.ok.injEq] at h
            subst h
            intro s hs
            rcases List.mem_cons.mp hs with hs | hs
            · exact ⟨c, List.mem_cons_self c rest, e, hemb, he, v, hcos, hs⟩
            · obtain ⟨c', hc', rest'⟩ := ih htail s hs
              exact ⟨c', List.mem_cons_of_mem c hc', rest'⟩

theorem computeScored_ok {q : List ℚ} {chunks : List RawChunk}
    (h : ∀ c ∈ chunks, ∀ e, c.embedding = some e → e ≠ [] → e.length = q.length) :
    ∃ scored, computeScored q chunks = .ok scored := by
  induction chunks with
  | nil => exact ⟨[], rfl⟩
  | cons c rest ih =>
    obtain ⟨tail, htail⟩ := ih (fun c' hc' => h c' (List.mem_cons_of_mem c hc'))
    cases hemb : c.embedding with
    | none => exact ⟨tail, by rw [computeScored_cons_none q c rest hemb]; exact htail⟩
    | some e =>
      by_cases he : e = []
      · subst he
        exact ⟨tail, by rw [computeScored_cons_empty q c rest hemb]; exact htail⟩
      · obtain ⟨v, hv⟩ :=
          cosine_ok_of_length (q := q) (e := e)
            (h c (List.mem_cons_self c rest) e hemb he).symm
        refine ⟨{ id := c.id, document_id := c.document_id, text := c.text,
                  chunk_index := c.chunk_index, page_number := c.page_number,
                  vector_score := v } :: tail, ?_⟩
        rw [computeScored_cons_some q c rest e hemb he]
        simp only [hv, htail]

theorem computeScored_error {q : List ℚ} {chunks : List RawChunk}
    (h : ∃ c ∈ chunks, ∃ e, c.embedding = some e ∧ e ≠ [] ∧ e.length ≠ q.length) :
    computeScored q chunks = .error () := by
  induction chunks with
  | nil => obtain ⟨c, hc, -⟩ := h; exact absurd hc (by simp)
  | cons c rest ih =>
    obtain ⟨c', hc', e', hemb', hne', hlen'⟩ := h
    rcases List.mem_cons.mp hc' with rfl | hmem
    · rw [computeScored_cons_some q c' rest e' hemb' hne',
        cosine_error_of_length (Ne.symm hlen')]
    · have herr : computeScored q rest = .error () :=
        ih ⟨c', hmem, e', hemb', hne', hlen'⟩
      cases hemb : c.embedding with
      | none => rw [computeScored_cons_none q c rest hemb]; exact herr
      | some e =>
        by_cases he : e = []
        · subst he
          rw [computeScored_cons_empty q c rest hemb]; exact herr
        · rw [computeScored_cons_some q c rest e hemb he]
          cases hcos : cosine_similarity q e with
          | error u => cases u; rfl
          | ok v => simp only [herr]

/-- Scores appearing in a `searchRanked` success are never NaN: hybrid
fused scores are exact rationals, and vector-only scores passed the
`>= min_score` comparison, which is false for NaN. -/
theorem searchRanked_no_nan {q : List ℚ} {chunks : List RawChunk} {hb : Bool}
    {f : List (List Str) → List Str → List ℚ} {query : Str} {ms : ℚ}
    {out : List ResultEntry} (h : searchRanked q chunks hb f query ms = .ok out) :
    ∀ r ∈ out, r.score ≠ PyVal.nan := by
  unfold searchRanked at h
  split at h
  · injection h with h'; subst h'; intro r hr; exact absurd hr (by simp)
  · cases hcs : computeScored q chunks with
    | error u => simp [hcs] at h
    | ok scored =>
      simp only [hcs] at h
      split at h
      · injection h with h'; subst h'; intro r hr; exact absurd hr (by simp)
      · injection h with h'
        subst h'
        intro r hr
        obtain ⟨p, hp, rfl⟩ := List.mem_map.mp hr
        rw [List.mem_insertionSort] at hp
        split at hp
        · obtain ⟨hc, hhc, rfl⟩ := List.mem_map.mp hp
          unfold _hybrid_rrf_search at hhc
          have hmem := List.mem_of_mem_filter hhc
          obtain ⟨b, -, rfl⟩ := List.mem_map.mp hmem
          simp [preToResult, hybToPre, ratv]
        · obtain ⟨sc, hsc, rfl⟩ := List.mem_map.mp hp
          have hge := List.of_mem_filter hsc
          have := pyGe_isVal_left (a := sc.vector_score) (b := ratv ms) hge
          simpa [preToResult, vecToPre] using this

/-! ### C4: malformed embeddings -/

/-- C4 is false as stated: in this search call only the second chunk has a
dimensionality-mismatched embedding (query dimension 1, embedding dimension
2), yet the entire query aborts with an error instead of skipping that
chunk. -/
theorem c4_counterexample :
    search [1] [fixC1, fixMism] true fixBM "q".toList 5 (1/2) =
      .error () := by
  norm_num +decide [search, searchRanked, computeScored, cosine_similarity,
    sumsq, dotQ, fixC1, fixMism]

/-- C4 (amended): chunks with a missing or empty embedding are skipped
without aborting the query, and only such chunks are skipped; but a chunk
whose embedding is present, non-empty and dimensionality-mismatched with
the query aborts the entire search with an error; a zero-magnitude
embedding yields a NaN similarity, and no NaN score ever appears among the
returned results (NaN fails every threshold comparison). -/
theorem c4_amended (q : List ℚ) (chunks : List RawChunk) (hb : Bool)
    (f : List (List Str) → List Str → List ℚ) (query : Str) (ms : ℚ) :
    ((∃ c ∈ chunks, ∃ e, c.embedding = some e ∧ e ≠ [] ∧ e.length ≠ q.length) →
      searchRanked q chunks hb f query ms = .error ()) ∧
    ((∀ c ∈ chunks, ∀ e, c.embedding = some e → e ≠ [] → e.length = q.length) →
      ∃ out, searchRanked q chunks hb f query ms = .ok out) ∧
    (∀ out, searchRanked q chunks hb f query ms = .ok out →
      ∀ r ∈ out, r.score ≠ PyVal.nan) ∧
    (∀ scored, computeScored q chunks = .ok scored →
      ∀ s ∈ scored, ∃ c ∈ chunks, ∃ e, c.embedding = some e ∧ e ≠ [] ∧
        ∃ v, cosine_similarity q e = .ok v ∧
          s = ⟨c.id, c.document_id, c.text, c.chunk_index, c.page_number, v⟩) := by
  refine ⟨?_, ?_, ?_, ?_⟩
  · intro hex
    have herr := computeScored_error (q := q) hex
    unfold searchRanked
    rw [if_neg, herr]
    obtain ⟨c, hc, -⟩ := hex
    intro hnil
    subst hnil
    exact absurd hc (by simp)
  · intro hall
    obtain ⟨scored, hsc⟩ := computeScored_ok (q := q) hall
    unfold searchRanked
    split
    · exact ⟨[], rfl⟩
    · simp only [hsc]
      split
      · exact ⟨[], rfl⟩
      · exact ⟨_, rfl⟩
  · intro out h
    exact searchRanked_no_nan h
  · intro scored h
    exact computeScored_mem_src h

/-- C4 witness: the amended theorem applied at concrete inputs — a
mismatched chunk aborts, and a well-aligned set of chunks succeeds. -/
theorem c4_witness :
    searchRanked [1] [fixC1, fixMism] true fixBM "q".toList (1/2) = .error () ∧
    (∃ out, searchRanked [1, 0] [fixA] true fixBM "q".toList 0 = .ok out) := by
  constructor
  · exact (c4_amended [1] [fixC1, fixMism] true fixBM "q".toList (1/2)).1
      ⟨fixMism, by decide, [1, 1], rfl, by decide, by decide⟩
  · exact (c4_amended [1, 0] [fixA] true fixBM "q".toList 0).2.1
      (by intro c hc e hemb hne
          rcases List.mem_singleton.mp hc with rfl
          rw [show fixA.embedding = some [1, 0] from rfl] at hemb
          injection hemb with h'
          subst h'
          decide)

/-! ### C10: Python slice semantics of `top_k` -/

/-- C10: `search` with `top_k = 0` returns an empty list, and a negative
`top_k` does not raise but returns the ranked results with the `|top_k|`
lowest-ranked entries sliced off (`results[:top_k]`), which is non-empty
whenever more than `|top_k|` results were retained. -/
theorem c10_topk_slice (q : List ℚ) (chunks : List RawChunk) (hb : Bool)
    (f : List (List Str) → List Str → List ℚ) (query : Str) (ms : ℚ) :
    (∀ res, search q chunks hb f query 0 ms = .ok res → res = []) ∧
    (∀ t : Int, t < 0 → ∀ full, searchRanked q chunks hb f query ms = .ok full →
      search q chunks hb f query t ms =
        .ok (full.take (full.length - (-t).toNat)) ∧
      ((-t).toNat < full.length →
        full.take (full.length - (-t).toNat) ≠ [])) := by
  constructor
  · intro res h
    unfold search at h
    cases hsr : searchRanked q chunks hb f query ms with
    | error u => rw [hsr] at h; exact absurd h (by simp)
    | ok full =>
      rw [hsr] at h
      simp only [Except.ok.injEq] at h
      subst h
      simp [pySlice]
  · intro t ht full hfull
    constructor
    · unfold search
      rw [hfull]
      simp [pySlice, not_le.mpr ht]
    · intro hlen
      have hpos : 0 < (full.take (full.length - (-t).toNat)).length := by
        rw [List.length_take]
        omega
      exact List.ne_nil_of_length_pos hpos

/-- C10 witness: with two retained results and `top_k = -1`, the search
returns exactly the top result (all but the one lowest-ranked). -/
theorem c10_witness :
    search [1, 0] [fixB, fixA] false fixBM "q".toList (-1) 0 =
      .ok [⟨"A".toList, "doc".toList, "alpha".toList, 0, none, PyVal.fin 1 1⟩] ∧
    ([⟨"A".toList, "doc".toList, "alpha".toList, 0, none, PyVal.fin 1 1⟩] :
      List ResultEntry) ≠ [] := by
  have heval : searchRanked [1, 0] [fixB, fixA] false fixBM "q".toList 0 =
      .ok [⟨"A".toList, "doc".toList, "alpha".toList, 0, none, PyVal.fin 1 1⟩,
           ⟨"B".toList, "doc".toList, "beta".toList, 1, none, PyVal.fin 1 2⟩] := by
    norm_num +decide [searchRanked, computeScored, cosine_similarity, sumsq, dotQ,
      fixA, fixB, vecToPre, preToResult, sRel, pyGe, valLtB, ratv, isort_pair]
  have h := (c10_topk_slice [1, 0] [fixB, fixA] false fixBM "q".toList 0).2
    (-1) (by norm_num) _ heval
  constructor
  · simpa using h.1
  · simp

/-! ### C9: unsupported chunking strategy names -/

/-- C9 is false as stated: requesting the unsupported strategy name
`"bogus"` is not reported as an error; it returns the very same recursive
strategy a valid request returns. -/
theorem c9_counterexample :
    get_chunking_strategy "bogus".toList 1000 200 =
        ChunkStrat.recursive 1000 200 ∧
    get_chunking_strategy "recursive".toList 1000 200 =
        ChunkStrat.recursive 1000 200 := by
  constructor <;> decide

/-- C9 (amended): an unsupported strategy name is silently mapped to the
default recursive strategy (the factory's `dict.get` fallback), not
reported as an input error. -/
theorem c9_amended (s : Str) (cs ov : Nat)
    (h1 : s ≠ "recursive".toList) (h2 : s ≠ "sentence".toList)
    (h3 : s ≠ "semantic".toList) :
    get_chunking_strategy s cs ov = ChunkStrat.recursive cs ov := by
  unfold get_chunking_strategy
  rw [if_neg h1, if_neg h2, if_neg h3]

/-- C9 witness: the amended theorem at the concrete name `"bogus"`. -/
theorem c9_witness :
    get_chunking_strategy "bogus".toList 7 3 = ChunkStrat.recursive 7 3 :=
  c9_amended "bogus".toList 7 3 (by decide) (by decide) (by decide)

/-! ### Facts about `build_context` -/

theorem sumTexts_nil : sumTexts [] = 0 := rfl

theorem sumTexts_cons (c : ResultEntry) (l : List ResultEntry) :
    sumTexts (c :: l) = c.text.length + sumTexts l := by
  simp [sumTexts]

theorem bcTake_eq_take (maxc : Nat) :
    ∀ (l : List ResultEntry) (tot : Nat), tot ≤ maxc →
      bcTake maxc tot l = l.take (greedyCount maxc tot l) ∧
      greedyCount maxc tot l ≤ l.length ∧
      tot + sumTexts (l.take (greedyCount maxc tot l)) ≤ maxc ∧
      (greedyCount maxc tot l = l.length ∨
        maxc < tot + sumTexts (l.take (greedyCount maxc tot l + 1))) := by
  intro l
  induction l with
  | nil =>
    intro tot htot
    refine ⟨rfl, Nat.le_refl _, ?_, Or.inl rfl⟩
    simpa [greedyCount, sumTexts] using htot
  | cons c rest ih =>
    intro tot htot
    by_cases hover : maxc < tot + c.text.length
    · have hg : greedyCount maxc tot (c :: rest) = 0 := by
        simp [greedyCount, hover]
      have hb : bcTake maxc tot (c :: rest) = [] := by
        simp [bcTake, hover]
      refine ⟨by simp [hb, hg], by simp [hg], ?_, Or.inr ?_⟩
      · simpa [hg, sumTexts] using htot
      · simpa [hg, sumTexts_cons, sumTexts] using hover
    · have htot' : tot + c.text.length ≤ maxc := Nat.le_of_not_lt hover
      obtain ⟨ht, hle, hsum, halt⟩ := ih (tot + c.text.length) htot'
      have hg : greedyCount maxc tot (c :: rest) =
          greedyCount maxc (tot + c.text.length) rest + 1 := by
        simp [greedyCount, hover]
      have hb : bcTake maxc tot (c :: rest) =
          c :: bcTake maxc (tot + c.text.length) rest := by
        simp [bcTake, hover]
      refine ⟨?_, ?_, ?_, ?_⟩
      · rw [hb, hg, List.take_succ_cons, ht]
      · rw [hg]; simpa using hle
      · rw [hg, List.take_succ_cons, sumTexts_cons]
        omega
      · rw [hg]
        rcases halt with h | h
        · exact Or.inl (by simp [h])
        · refine Or.inr ?_
          rw [List.take_succ_cons, sumTexts_cons]
          omega

theorem pyJoin_length_le (sep : Str) :
    ∀ l : List Str, (pyJoin sep l).length ≤
      (l.map (fun s => s.length + sep.length)).sum := by
  intro l
  induction l with
  | nil => simp [pyJoin]
  | cons x xs ih =>
    cases xs with
    | nil => simp [pyJoin]
    | cons y ys =>
      have hx : pyJoin sep (x :: y :: ys) = x ++ sep ++ pyJoin sep (y :: ys) := rfl
      rw [hx]
      simp only [List.length_append, List.map_cons, List.sum_cons]
      simp only [List.map_cons, List.sum_cons] at ih
      omega

theorem sum_map_add {α : Type} (l : List α) (f g : α → ℕ) :
    (l.map (fun x => f x + g x)).sum = (l.map f).sum + (l.map g).sum := by
  induction l with
  | nil => rfl
  | cons x xs ih => simp [ih]; omega

/-! ### C6: context labels and greedy packing -/

/-- C6 is false as stated: a single included chunk whose `chunk_index` is 5
is labeled `"[Source 6]"` (its document-ordinal plus one), not
`"[Source 1]"` (its 1-based position in the given ranked list). -/
theorem c6_counterexample :
    build_context [⟨"X".toList, "doc".toList, "a".toList, 5, none, ratv 1⟩] 4000 =
      "[Source 6]\na".toList ∧
    build_context [⟨"X".toList, "doc".toList, "a".toList, 5, none, ratv 1⟩] 4000 ≠
      "[Source 1]\na".toList := by
  constructor <;> decide

/-- C6 (amended): `build_context` appends chunks greedily in the given
order, stopping at the first chunk whose text would exceed the character
budget, and labels each included chunk with `chunk_index + 1` — its
1-based ordinal within its source document — rather than its position in
the given list. -/
theorem c6_build_context_greedy (chunks : List ResultEntry) (mt : Nat)
    (hne : chunks ≠ []) :
    greedyCount (mt * 4) 0 chunks ≤ chunks.length ∧
    sumTexts (chunks.take (greedyCount (mt * 4) 0 chunks)) ≤ mt * 4 ∧
    (greedyCount (mt * 4) 0 chunks = chunks.length ∨
      mt * 4 < sumTexts (chunks.take (greedyCount (mt * 4) 0 chunks + 1))) ∧
    build_context chunks mt =
      pyJoin bcSep ((chunks.take (greedyCount (mt * 4) 0 chunks)).map
        (fun c => bcLabel (c.chunk_index + 1) ++ c.text)) := by
  obtain ⟨ht, hle, hsum, halt⟩ :=
    bcTake_eq_take (mt * 4) chunks 0 (Nat.zero_le _)
  refine ⟨hle, ?_, ?_, ?_⟩
  · simpa using hsum
  · simpa using halt
  · unfold build_context
    rw [if_neg hne, ht]
    rfl

/-- C6 witness: the amended theorem at a concrete one-chunk list. -/
theorem c6_witness :
    build_context [(⟨"X".toList, "doc".toList, "ab".toList, 2, none, ratv 1⟩ :
        ResultEntry)] 4000 =
      pyJoin bcSep
        (([(⟨"X".toList, "doc".toList, "ab".toList, 2, none, ratv 1⟩ :
            ResultEntry)].take
            (greedyCount (4000 * 4) 0
              [(⟨"X".toList, "doc".toList, "ab".toList, 2, none, ratv 1⟩ :
                ResultEntry)])).map
          (fun c => bcLabel (c.chunk_index + 1) ++ c.text)) :=
  (c6_build_context_greedy
    [(⟨"X".toList, "doc".toList, "ab".toList, 2, none, ratv 1⟩ : ResultEntry)]
    4000 (by decide)).2.2.2

/-! ### C7: context length bound -/

/-- C7 is false as stated: with budget `max_tokens = 1` and four included
one-character chunks, the output length (69) exceeds
`max_tokens * 4` plus the longest single included chunk's
label-plus-separator overhead (4 + 18 = 22); the per-chunk overhead is paid
once per included chunk, not once overall. -/
theorem c7_counterexample :
    ¬ ((build_context
          [⟨"X".toList, "doc".toList, "a".toList, 0, none, ratv 1⟩,
           ⟨"X".toList, "doc".toList, "a".toList, 0, none, ratv 1⟩,
           ⟨"X".toList, "doc".toList, "a".toList, 0, none, ratv 1⟩,
           ⟨"X".toList, "doc".toList, "a".toList, 0, none, ratv 1⟩] 1).length ≤
        1 * 4 +
          ((bcTake (1 * 4) 0
              [⟨"X".toList, "doc".toList, "a".toList, 0, none, ratv 1⟩,
               ⟨"X".toList, "doc".toList, "a".toList, 0, none, ratv 1⟩,
               ⟨"X".toList, "doc".toList, "a".toList, 0, none, ratv 1⟩,
               ⟨"X".toList, "doc".toList, "a".toList, 0, none, ratv 1⟩]).map
            bcOverhead).foldr max 0) := by
  decide

/-- C7 (amended): `build_context [] mt = ""`, and the output length is at
most `max_tokens * 4` plus the SUM of the label-plus-separator overheads of
the included chunks (the counterexample forces the sum in place of the
single largest overhead). -/
theorem c7_context_length_bound (chunks : List ResultEntry) (mt : Nat) :
    build_context [] mt = [] ∧
    (build_context chunks mt).length ≤
      mt * 4 + ((bcTake (mt * 4) 0 chunks).map bcOverhead).sum := by
  refine ⟨rfl, ?_⟩
  by_cases hne : chunks = []
  · subst hne
    simp [build_context]
  · unfold build_context
    rw [if_neg hne]
    obtain ⟨ht, -, hsum, -⟩ := bcTake_eq_take (mt * 4) chunks 0 (Nat.zero_le _)
    rw [ht]
    have h1 : (pyJoin bcSep
          ((chunks.take (greedyCount (mt * 4) 0 chunks)).map bcPart)).length ≤
        (((chunks.take (greedyCount (mt * 4) 0 chunks)).map bcPart).map
          (fun s => s.length + bcSep.length)).sum :=
      pyJoin_length_le bcSep _
    have h2 : (((chunks.take (greedyCount (mt * 4) 0 chunks)).map bcPart).map
          (fun s => s.length + bcSep.length)).sum =
        ((chunks.take (greedyCount (mt * 4) 0 chunks)).map bcOverhead).sum +
          sumTexts (chunks.take (greedyCount (mt * 4) 0 chunks)) := by
      rw [List.map_map]
      have he : ((fun s : Str => s.length + bcSep.length) ∘ bcPart) =
          fun c => bcOverhead c + c.text.length := by
        funext c
        simp [bcPart, bcOverhead, bcLabel]
        omega
      rw [he, sum_map_add]
      rfl
    omega

/-! ### Generic facts about stable sorting -/

theorem pairwise_insertionSort_restricted {α : Type} (r : α → α → Prop)
    [DecidableRel r] (l : List α)
    (tot : ∀ a ∈ l, ∀ b ∈ l, r a b ∨ r b a)
    (htr : ∀ a ∈ l, ∀ b ∈ l, ∀ c ∈ l, r a b → r b c → r a c) :
    (l.insertionSort r).Pairwise r := by
  let r' : {x // x ∈ l} → {x // x ∈ l} → Prop := fun a b => r a.1 b.1
  haveI : DecidableRel r' := fun a b => inferInstanceAs (Decidable (r a.1 b.1))
  haveI : IsTotal {x // x ∈ l} r' := ⟨fun a b => tot a.1 a.2 b.1 b.2⟩
  haveI : IsTrans {x // x ∈ l} r' :=
    ⟨fun a b c hab hbc => htr a.1 a.2 b.1 b.2 c.1 c.2 hab hbc⟩
  have hmap : (l.attach.insertionSort r').map Subtype.val = l.insertionSort r := by
    rw [List.map_insertionSort r' r Subtype.val l.attach (fun a _ b _ => Iff.rfl)]
    rw [List.attach_map_subtype_val]
  have hp : (l.attach.insertionSort r').Pairwise r' :=
    List.sorted_insertionSort r' l.attach
  rw [← hmap]
  exact hp.map Subtype.val (fun a b h => h)

/-! ### C3: vector-only degradation path -/

theorem computeScored_score_shape {q : List ℚ} {chunks : List RawChunk}
    {scored : List ScoredChunk} (h : computeScored q chunks = .ok scored) :
    ∀ s ∈ scored, s.vector_score = .nan ∨ s.vector_score.IsVal := by
  intro s hs
  obtain ⟨c, -, e, -, -, v, hv, rfl⟩ := computeScored_mem_src h s hs
  simpa using cosine_ok_isVal_or_nan hv

/-- C3: when BM25 is unavailable or fewer than two chunks were embedded,
`search` ranks purely by vector score descending and retains exactly the
chunks whose vector score passes the primary `min_score` threshold. -/
theorem c3_vector_only_fallback (q : List ℚ) (chunks : List RawChunk) (hb : Bool)
    (f : List (List Str) → List Str → List ℚ) (query : Str) (ms : ℚ)
    (scored : List ScoredChunk) (out : List ResultEntry)
    (hcs : computeScored q chunks = .ok scored)
    (hdeg : hb = false ∨ scored.length < 2)
    (hout : searchRanked q chunks hb f query ms = .ok out) :
    out.Perm ((scored.filter (fun c => pyGe c.vector_score (ratv ms))).map
      (fun c => ⟨c.id, c.document_id, c.text, c.chunk_index, c.page_number,
        c.vector_score⟩)) ∧
    out.Pairwise (fun a b => pyGe a.score b.score = true) := by
  have hcond : (hb && decide (1 < scored.length)) = false := by
    rcases hdeg with h | h
    · simp [h]
    · simp [Nat.not_lt.mpr (Nat.le_of_lt_succ h)]
  unfold searchRanked at hout
  split at hout
  · rename_i hnil
    subst hnil
    rw [computeScored_nil] at hcs
    injection hcs with hcs'
    subst hcs'
    injection hout with hout'
    subst hout'
    exact ⟨by simp, by simp⟩
  · simp only [hcs] at hout
    split at hout
    · rename_i hsc0
      subst hsc0
      injection hout with hout'
      subst hout'
      exact ⟨by simp, by simp⟩
    · rw [if_neg (by simp [hcond])] at hout
      injection hout with hout'
      subst hout'
      set pres := (scored.filter (fun c => pyGe c.vector_score (ratv ms))).map
        vecToPre with hpres
      have hisval : ∀ p ∈ pres, p.score.IsVal := by
        intro p hp
        rw [hpres] at hp
        obtain ⟨c, hc, rfl⟩ := List.mem_map.mp hp
        have hge := List.of_mem_filter hc
        have hsh := computeScored_score_shape hcs c (List.mem_of_mem_filter hc)
        rcases hsh with hn | hv
        · exact absurd hge (by simp [vecToPre, hn])
        · simpa [vecToPre] using hv
      constructor
      · have hperm : (pres.insertionSort sRel).Perm pres :=
          List.perm_insertionSort sRel pres
        refine ((hperm.map preToResult).trans ?_)
        rw [hpres, List.map_map]
        exact List.Perm.refl _
      · have hpw : (pres.insertionSort sRel).Pairwise sRel := by
          apply pairwise_insertionSort_restricted sRel pres
          · intro a ha b hb'
            exact pyGe_total (hisval a ha) (hisval b hb')
          · intro a ha b hb' c hc hab hbc
            exact pyGe_trans (hisval a ha) (hisval b hb') (hisval c hc) hab hbc
        exact hpw.map preToResult (fun a b h => h)

/-- C3 witness: with BM25 nominally available but only one embedded chunk,
the engine falls back to vector-only ranking. -/
theorem c3_witness :
    ([(⟨"A".toList, "doc".toList, "alpha".toList, 0, none, PyVal.fin 1 1⟩ :
        ResultEntry)] : List ResultEntry).Perm
      (([(⟨"A".toList, "doc".toList, "alpha".toList, 0, none, PyVal.fin 1 1⟩ :
          ScoredChunk)].filter (fun c => pyGe c.vector_score (ratv 0))).map
        (fun c => ⟨c.id, c.document_id, c.text, c.chunk_index, c.page_number,
          c.vector_score⟩)) ∧
    ([(⟨"A".toList, "doc".toList, "alpha".toList, 0, none, PyVal.fin 1 1⟩ :
        ResultEntry)] : List ResultEntry).Pairwise
      (fun a b => pyGe a.score b.score = true) := by
  have h1 : computeScored [1, 0] [fixA] =
      .ok [⟨"A".toList, "doc".toList, "alpha".toList, 0, none, PyVal.fin 1 1⟩] := by
    norm_num +decide [computeScored, cosine_similarity, sumsq, dotQ, fixA]
  have h2 : searchRanked [1, 0] [fixA] true fixBM "q".toList 0 =
      .ok [⟨"A".toList, "doc".toList, "alpha".toList, 0, none, PyVal.fin 1 1⟩] := by
    norm_num +decide [searchRanked, computeScored, cosine_similarity, sumsq, dotQ,
      fixA, vecToPre, preToResult, sRel, pyGe, valLtB, ratv]
  exact c3_vector_only_fallback [1, 0] [fixA] true fixBM "q".toList 0 _ _
    h1 (Or.inr (by decide)) h2

/-! ### C2: hybrid inclusion policy -/

theorem attachBM25Go_map_base (bs : List ℚ) :
    ∀ (scored : List ScoredChunk) (i : Nat),
      (attachBM25Go bs i scored).map (·.toScoredChunk) = scored := by
  intro scored
  induction scored with
  | nil => intro i; rfl
  | cons c rest ih => intro i; simp [attachBM25Go, ih (i + 1)]

theorem attachBM25_map_id (scored : List ScoredChunk) (bs : List ℚ) :
    (attachBM25 scored bs).map (·.id) = scored.map (·.id) := by
  have h := attachBM25Go_map_base bs scored 0
  calc (attachBM25 scored bs).map (·.id)
      = ((attachBM25 scored bs).map (·.toScoredChunk)).map (·.id) := by
        rw [List.map_map]; rfl
    _ = scored.map (·.id) := by rw [attachBM25]; rw [h]

/-- C2: in the hybrid path, a candidate appears in the retained set iff its
vector score reaches `min_score`, or its BM25 score is strictly positive
and its vector score reaches the secondary floor 0.2; the retained set is
what the final fused-score sort then orders (sorting neither adds nor
removes candidates). -/
theorem c2_hybrid_inclusion (f : List (List Str) → List Str → List ℚ)
    (scored : List ScoredChunk) (query : Str) (ms : ℚ)
    (hids : (scored.map (·.id)).Nodup) :
    ∀ c ∈ attachBM25 scored
        (f (scored.map fun s => _tokenize s.text) (_tokenize query)),
      ((∃ r ∈ _hybrid_rrf_search f scored query ms, r.id = c.id) ↔
        (pyGe c.vector_score (ratv ms) = true ∨
          (0 < c.bm25_score ∧ pyGe c.vector_score (ratv (1 / 5)) = true))) ∧
      (∀ (q : List ℚ) (chunks : List RawChunk) (out : List ResultEntry),
        computeScored q chunks = .ok scored →
        searchRanked q chunks true f query ms = .ok out →
        1 < scored.length →
        ((∃ r ∈ out, r.id = c.id) ↔
          ∃ h ∈ _hybrid_rrf_search f scored query ms, h.id = c.id)) := by
  intro c hc
  set bs := f (scored.map fun s => _tokenize s.text) (_tokenize query) with hbs
  set wb := attachBM25 scored bs with hwb
  have hnodup : (wb.map (·.id)).Nodup := by
    rw [hwb, attachBM25_map_id]
    exact hids
  have hinj := List.inj_on_of_nodup_map hnodup
  have hhyb : _hybrid_rrf_search f scored query ms =
      (attachRRF wb).filter (fun x => hybridFilter ms x) := rfl
  constructor
  · constructor
    · rintro ⟨r, hr, hid⟩
      rw [hhyb] at hr
      have hf := List.of_mem_filter hr
      have hmem := List.mem_of_mem_filter hr
      obtain ⟨b, hb, rfl⟩ := List.mem_map.mp hmem
      have hbc : b = c := hinj hb hc hid
      subst hbc
      simpa [hybridFilter, Bool.or_eq_true, Bool.and_eq_true,
        decide_eq_true_eq] using hf
    · intro hcond
      refine ⟨⟨c, ratv (dGet0 (rrf_scores wb) c.id)⟩, ?_, rfl⟩
      rw [hhyb]
      apply List.mem_filter.mpr
      refine ⟨List.mem_map.mpr ⟨c, hc, rfl⟩, ?_⟩
      simpa [hybridFilter, Bool.or_eq_true, Bool.and_eq_true,
        decide_eq_true_eq] using hcond
  · intro q chunks out hcs hout hlen
    have hs0 : scored ≠ [] := by
      intro h
      rw [h] at hlen
      exact absurd hlen (by decide)
    unfold searchRanked at hout
    split at hout
    · rename_i hnil
      subst hnil
      rw [computeScored_nil] at hcs
      injection hcs with hcs'
      exact absurd hcs'.symm hs0
    · simp only [hcs] at hout
      rw [if_neg hs0] at hout
      rw [if_pos (by simp [hlen])] at hout
      injection hout with hout'
      subst hout'
      constructor
      · rintro ⟨r, hr, hid⟩
        obtain ⟨p, hp, rfl⟩ := List.mem_map.mp hr
        rw [List.mem_insertionSort] at hp
        obtain ⟨h, hh, rfl⟩ := List.mem_map.mp hp
        exact ⟨h, hh, hid⟩
      · rintro ⟨h, hh, hid⟩
        refine ⟨preToResult (hybToPre h), ?_, hid⟩
        apply List.mem_map.mpr
        refine ⟨hybToPre h, ?_, rfl⟩
        rw [List.mem_insertionSort]
        exact List.mem_map.mpr ⟨h, hh, rfl⟩

/-- C2 witness: with `min_score = 9/10`, chunk B (vector score `1/√2`,
BM25 score 0) is excluded — it fails the primary threshold and has no
keyword match — while chunk A (vector score 1) is retained. -/
theorem c2_witness :
    (¬ ∃ r ∈ _hybrid_rrf_search (fun _ _ => [0, 1])
        [⟨"B".toList, "doc".toList, "beta".toList, 1, none, PyVal.fin 1 2⟩,
         ⟨"A".toList, "doc".toList, "alpha".toList, 0, none, PyVal.fin 1 1⟩]
        "q".toList (9/10), r.id = "B".toList) ∧
    (∃ r ∈ _hybrid_rrf_search (fun _ _ => [0, 1])
        [⟨"B".toList, "doc".toList, "beta".toList, 1, none, PyVal.fin 1 2⟩,
         ⟨"A".toList, "doc".toList, "alpha".toList, 0, none, PyVal.fin 1 1⟩]
        "q".toList (9/10), r.id = "A".toList) := by
  have hiffB := (c2_hybrid_inclusion (fun _ _ => [0, 1])
    [⟨"B".toList, "doc".toList, "beta".toList, 1, none, PyVal.fin 1 2⟩,
     ⟨"A".toList, "doc".toList, "alpha".toList, 0, none, PyVal.fin 1 1⟩]
    "q".toList (9/10) (by decide)
    ⟨⟨"B".toList, "doc".toList, "beta".toList, 1, none, PyVal.fin 1 2⟩, 0⟩
    (by norm_num +decide [attachBM25, attachBM25Go])).1
  have hiffA := (c2_hybrid_inclusion (fun _ _ => [0, 1])
    [⟨"B".toList, "doc".toList, "beta".toList, 1, none, PyVal.fin 1 2⟩,
     ⟨"A".toList, "doc".toList, "alpha".toList, 0, none, PyVal.fin 1 1⟩]
    "q".toList (9/10) (by decide)
    ⟨⟨"A".toList, "doc".toList, "alpha".toList, 0, none, PyVal.fin 1 1⟩, 1⟩
    (by norm_num +decide [attachBM25, attachBM25Go])).1
  constructor
  · intro hex
    have := hiffB.mp hex
    rcases this with h | h
    · revert h
      norm_num [pyGe, valLtB, ratv]
    · exact absurd h.1 (by norm_num)
  · exact hiffA.mpr (Or.inl (by norm_num [pyGe, valLtB, ratv]))

/-! ### C5: final result ordering -/

theorem hybrid_score_isVal (f : List (List Str) → List Str → List ℚ)
    (scored : List ScoredChunk) (query : Str) (ms : ℚ) :
    ∀ h ∈ _hybrid_rrf_search f scored query ms, h.score.IsVal := by
  intro h hh
  unfold _hybrid_rrf_search at hh
  have hmem := List.mem_of_mem_filter hh
  obtain ⟨b, -, rfl⟩ := List.mem_map.mp hmem
  exact ratv_isVal _

/-- C5 is false as stated: both results have the same fused score, chunk A
has the strictly greater vector score, yet chunk B is returned first
because the sort is stable on the insertion order — ties are NOT broken by
vector score descending. -/
theorem c5_counterexample :
    search [1, 0] [fixB, fixA] true fixBM "q".toList 5 0 =
      .ok [⟨"B".toList, "doc".toList, "beta".toList, 1, none, ratv (123/3782)⟩,
           ⟨"A".toList, "doc".toList, "alpha".toList, 0, none, ratv (123/3782)⟩] ∧
    computeScored [1, 0] [fixB, fixA] =
      .ok [⟨"B".toList, "doc".toList, "beta".toList, 1, none, PyVal.fin 1 2⟩,
           ⟨"A".toList, "doc".toList, "alpha".toList, 0, none, PyVal.fin 1 1⟩] ∧
    pyGt (PyVal.fin 1 1) (PyVal.fin 1 2) = true := by
  refine ⟨?_, ?_, ?_⟩
  · norm_num +decide [search, pySlice, searchRanked, computeScored,
      cosine_similarity, sumsq, dotQ, fixA, fixB, fixBM, _hybrid_rrf_search,
      attachBM25, attachBM25Go, attachRRF, rrf_scores, rrfFold1, rrfFold2,
      vector_ranked, bm25_ranked, vRel, bRel, vsAt, bsAt, idAt, dictUpd, dGet0,
      hybridFilter, hybToPre, preToResult, sRel, pyGe, pyGt, pyLt, valLtB, ratv,
      isort_pair, List.range_succ, List.getD]
  · norm_num +decide [computeScored, cosine_similarity, sumsq, dotQ, fixA, fixB]
  · norm_num [pyGt, pyLt, valLtB]

/-- C5 (amended): the final ordering of `search` is by fused score
descending; ties between equal fused scores are broken by chunk insertion
order (the sort is stable on the pre-sort list), NOT by original vector
score. -/
theorem c5_final_ordering (q : List ℚ) (chunks : List RawChunk) (hb : Bool)
    (f : List (List Str) → List Str → List ℚ) (query : Str) (ms : ℚ)
    (scored : List ScoredChunk) (out : List ResultEntry) (pres : List PreEntry)
    (hcs : computeScored q chunks = .ok scored)
    (hpres : pres = if hb && decide (1 < scored.length) then
        (_hybrid_rrf_search f scored query ms).map hybToPre
      else (scored.filter (fun c => pyGe c.vector_score (ratv ms))).map vecToPre)
    (hout : searchRanked q chunks hb f query ms = .ok out) :
    out.Perm (pres.map preToResult) ∧
    out.Pairwise (fun a b => pyGe a.score b.score = true) ∧
    (∀ a b, List.Sublist [a, b] pres → pyGe a.score b.score = true →
      pyGe b.score a.score = true →
      List.Sublist [preToResult a, preToResult b] out) := by
  have hisval : ∀ p ∈ pres, p.score.IsVal := by
    intro p hp
    rw [hpres] at hp
    split at hp
    · obtain ⟨h, hh, rfl⟩ := List.mem_map.mp hp
      exact hybrid_score_isVal f scored query ms h hh
    · obtain ⟨c, hc, rfl⟩ := List.mem_map.mp hp
      have hge := List.of_mem_filter hc
      have hsh := computeScored_score_shape hcs c (List.mem_of_mem_filter hc)
      rcases hsh with hn | hv
      · exact absurd hge (by simp [hn])
      · simpa [vecToPre] using hv
  have hmain : out = (pres.insertionSort sRel).map preToResult ∨
      (out = [] ∧ pres = []) := by
    unfold searchRanked at hout
    split at hout
    · rename_i hnil
      subst hnil
      rw [computeScored_nil] at hcs
      injection hcs with hcs'
      subst hcs'
      injection hout with hout'
      subst hout'
      refine Or.inr ⟨rfl, ?_⟩
      rw [hpres]
      simp
    · simp only [hcs] at hout
      split at hout
      · rename_i hsc0
        subst hsc0
        injection hout with hout'
        subst hout'
        refine Or.inr ⟨rfl, ?_⟩
        rw [hpres]
        simp
      · injection hout with hout'
        rw [← hpres] at hout'
        exact Or.inl hout'.symm
  rcases hmain with hmain | ⟨ho, hp⟩
  · subst hmain
    refine ⟨?_, ?_, ?_⟩
    · exact (List.perm_insertionSort sRel pres).map preToResult
    · have hpw : (pres.insertionSort sRel).Pairwise sRel := by
        apply pairwise_insertionSort_restricted sRel pres
        · intro a ha b hb'
          exact pyGe_total (hisval a ha) (hisval b hb')
        · intro a ha b hb' c hc hab hbc
          exact pyGe_trans (hisval a ha) (hisval b hb') (hisval c hc) hab hbc
      exact hpw.map preToResult (fun a b h => h)
    · intro a b hab hge _
      have hsub : List.Sublist [a, b] (pres.insertionSort sRel) :=
        List.pair_sublist_insertionSort hge hab
      simpa using hsub.map preToResult
  · subst ho
    subst hp
    exact ⟨by simp, by simp, by intro a b hab; simp at hab⟩

/-- C5 witness: the amended ordering theorem applied at the concrete
tie-producing input of the counterexample. -/
theorem c5_witness :
    ([⟨"B".toList, "doc".toList, "beta".toList, 1, none, ratv (123/3782)⟩,
      ⟨"A".toList, "doc".toList, "alpha".toList, 0, none, ratv (123/3782)⟩] :
      List ResultEntry).Pairwise (fun a b => pyGe a.score b.score = true) := by
  have h1 : computeScored [1, 0] [fixB, fixA] =
      .ok [⟨"B".toList, "doc".toList, "beta".toList, 1, none, PyVal.fin 1 2⟩,
           ⟨"A".toList, "doc".toList, "alpha".toList, 0, none, PyVal.fin 1 1⟩] := by
    norm_num +decide [computeScored, cosine_similarity, sumsq, dotQ, fixA, fixB]
  have h2 : searchRanked [1, 0] [fixB, fixA] true fixBM "q".toList 0 =
      .ok [⟨"B".toList, "doc".toList, "beta".toList, 1, none, ratv (123/3782)⟩,
           ⟨"A".toList, "doc".toList, "alpha".toList, 0, none, ratv (123/3782)⟩] := by
    norm_num +decide [searchRanked, computeScored, cosine_similarity, sumsq, dotQ,
      fixA, fixB, fixBM, _hybrid_rrf_search, attachBM25, attachBM25Go, attachRRF,
      rrf_scores, rrfFold1, rrfFold2, vector_ranked, bm25_ranked, vRel, bRel,
      vsAt, bsAt, idAt, dictUpd, dGet0, hybridFilter, hybToPre, preToResult,
      sRel, pyGe, pyGt, pyLt, valLtB, ratv, isort_pair, List.range_succ, List.getD]
  exact (c5_final_ordering [1, 0] [fixB, fixA] true fixBM "q".toList 0 _ _ _
    h1 rfl h2).2.1

/-! ### Position of an element in a stably sorted list -/

theorem pair_sublist_range {i j : Nat} :
    ∀ {n : Nat}, i < j → j < n → List.Sublist [i, j] (List.range n) := by
  intro n
  induction n with
  | zero => intro _ h; omega
  | succ m ih =>
    intro hij hj
    rw [List.range_succ]
    by_cases hjm : j < m
    · exact (ih hij hjm).trans (List.sublist_append_left _ _)
    · have hjm' : j = m := by omega
      subst hjm'
      have h1 : List.Sublist [i] (List.range j) :=
        List.singleton_sublist.mpr (List.mem_range.mpr hij)
      have h2 : List.Sublist [j] [j] := List.Sublist.refl _
      exact List.Sublist.append h1 h2

theorem sublist_pair_idxOf {α : Type} [DecidableEq α] {a b : α} :
    ∀ {l : List α}, l.Nodup → List.Sublist [a, b] l →
      l.indexOf a < l.indexOf b := by
  intro l
  induction l with
  | nil => intro _ h; simp at h
  | cons x xs ih =>
    intro hnd hsub
    have hxnx : x ∉ xs := (List.nodup_cons.mp hnd).1
    cases hsub with
    | cons _ h =>
      have ha : a ∈ xs := h.subset (by simp)
      have hb : b ∈ xs := h.subset (by simp)
      have hax : x ≠ a := fun he => hxnx (he ▸ ha)
      have hbx : x ≠ b := fun he => hxnx (he ▸ hb)
      rw [List.indexOf_cons_ne _ hax, List.indexOf_cons_ne _ hbx]
      have := ih (List.nodup_cons.mp hnd).2 h
      omega
    | cons₂ _ h =>
      have hb : b ∈ xs := h.subset (by simp)
      have hbx : a ≠ b := fun he => hxnx (he ▸ hb)
      rw [List.indexOf_cons_self, List.indexOf_cons_ne _ hbx]
      omega

theorem idxOf_eq_filter_length {α : Type} [DecidableEq α] {p : α → α → Bool} :
    ∀ {l : List α}, l.Nodup → l.Pairwise (fun a b => p a b = true) →
      (∀ a ∈ l, ∀ b ∈ l, p a b = true → p b a = true → False) →
      ∀ {x}, x ∈ l → l.indexOf x = (l.filter (fun y => p y x)).length := by
  intro l
  induction l with
  | nil => intro _ _ _ x hx; simp at hx
  | cons c t ih =>
    intro hnd hpw hasym x hx
    have hcmem : c ∈ c :: t := List.mem_cons_self c t
    rcases List.mem_cons.mp hx with rfl | hxt
    · rw [List.indexOf_cons_self]
      have hpcc : ¬ p x x = true := fun h => hasym x hcmem x hcmem h h
      have hfilt : (x :: t).filter (fun y => p y x) = [] := by
        rw [List.filter_cons]
        rw [if_neg (by simpa using hpcc)]
        rw [List.filter_eq_nil_iff]
        intro y hy
        have hxy : p x y = true := (List.pairwise_cons.mp hpw).1 y hy
        intro hyx
        exact hasym x hcmem y (List.mem_cons_of_mem x hy) hxy hyx
      rw [hfilt]
      rfl
    · have hxc : c ≠ x := by
        intro he
        subst he
        exact (List.nodup_cons.mp hnd).1 hxt
      rw [List.indexOf_cons_ne _ hxc]
      have hcx : p c x = true := (List.pairwise_cons.mp hpw).1 x hxt
      rw [List.filter_cons, if_pos (by simpa using hcx)]
      have := ih (List.nodup_cons.mp hnd).2 (List.pairwise_cons.mp hpw).2
        (fun a ha b hb => hasym a (List.mem_cons_of_mem c ha)
          b (List.mem_cons_of_mem c hb)) hxt
      simp [this]

theorem getD_map_lt {α β : Type} (f : α → β) :
    ∀ (l : List α) (i : Nat), i < l.length → ∀ (d : α) (d' : β),
      (l.map f).getD i d' = f (l.getD i d) := by
  intro l
  induction l with
  | nil => intro i hi; simp at hi
  | cons x xs ih =>
    intro i hi d d'
    cases i with
    | zero => rfl
    | succ k =>
      simp only [List.map_cons, List.getD_cons_succ]
      exact ih k (by simpa using hi) d d'

theorem idAt_inj {l : List ScoredB} (h : (l.map (·.id)).Nodup) {i j : Nat}
    (hi : i < l.length) (hj : j < l.length) (heq : idAt l i = idAt l j) :
    i = j := by
  have hmi : (l.map (·.id)).getD i [] = idAt l i :=
    getD_map_lt (·.id) l i hi default []
  have hmj : (l.map (·.id)).getD j [] = idAt l j :=
    getD_map_lt (·.id) l j hj default []
  have hlen : (l.map (·.id)).length = l.length := List.length_map l _
  have hgi : (l.map (·.id)).getD i [] = (l.map (·.id)).get ⟨i, by omega⟩ := by
    rw [List.getD_eq_getElem _ _ (by omega)]
    simp
  have hgj : (l.map (·.id)).getD j [] = (l.map (·.id)).get ⟨j, by omega⟩ := by
    rw [List.getD_eq_getElem _ _ (by omega)]
    simp
  have : (l.map (·.id)).get ⟨i, by omega⟩ = (l.map (·.id)).get ⟨j, by omega⟩ := by
    rw [← hgi, ← hgj, hmi, hmj, heq]
  have := (List.Nodup.get_inj_iff h).mp this
  simpa using this

/-! ### Lookup values of the RRF dict folds -/

theorem rrfFold1_notin (l : List ScoredB) :
    ∀ (L : List Nat) (r0 : Nat) (m : Str → Option ℚ) (k : Str),
      (∀ j ∈ L, idAt l j ≠ k) → rrfFold1 l r0 L m k = m k := by
  intro L
  induction L with
  | nil => intro r0 m k _; rfl
  | cons j0 rest ih =>
    intro r0 m k hk
    unfold rrfFold1
    rw [ih (r0 + 1) _ k (fun j hj => hk j (List.mem_cons_of_mem j0 hj))]
    unfold dictUpd
    rw [if_neg]
    intro he
    exact hk j0 (List.mem_cons_self j0 rest) he.symm

theorem rrfFold1_in (l : List ScoredB) :
    ∀ (L : List Nat) (r0 : Nat) (m : Str → Option ℚ) {i : Nat},
      i ∈ L → L.Nodup → (∀ j ∈ L, idAt l j = idAt l i → j = i) →
      rrfFold1 l r0 L m (idAt l i) =
        some (1 / (60 + ((r0 + L.indexOf i : Nat) : ℚ) + 1)) := by
  intro L
  induction L with
  | nil => intro r0 m i hi; simp at hi
  | cons j0 rest ih =>
    intro r0 m i hi hnd hinj
    by_cases hji : j0 = i
    · subst hji
      unfold rrfFold1
      have hrest : ∀ j ∈ rest, idAt l j ≠ idAt l j0 := by
        intro j hj he
        have := hinj j (List.mem_cons_of_mem j0 hj) he
        subst this
        exact (List.nodup_cons.mp hnd).1 hj
      rw [rrfFold1_notin l rest (r0 + 1) _ _ hrest]
      unfold dictUpd
      rw [if_pos rfl]
      rw [List.indexOf_cons_self]
      norm_num
    · have hirest : i ∈ rest := by
        rcases List.mem_cons.mp hi with h | h
        · exact absurd h.symm hji
        · exact h
      unfold rrfFold1
      rw [ih (r0 + 1) _ hirest (List.nodup_cons.mp hnd).2
        (fun j hj => hinj j (List.mem_cons_of_mem j0 hj))]
      rw [List.indexOf_cons_ne _ hji]
      congr 2
      push_cast
      ring

theorem rrfFold2_notin (l : List ScoredB) :
    ∀ (L : List Nat) (r0 : Nat) (m : Str → Option ℚ) (k : Str),
      (∀ j ∈ L, idAt l j ≠ k) → rrfFold2 l r0 L m k = m k := by
  intro L
  induction L with
  | nil => intro r0 m k _; rfl
  | cons j0 rest ih =>
    intro r0 m k hk
    unfold rrfFold2
    rw [ih (r0 + 1) _ k (fun j hj => hk j (List.mem_cons_of_mem j0 hj))]
    unfold dictUpd
    rw [if_neg]
    intro he
    exact hk j0 (List.mem_cons_self j0 rest) he.symm

theorem rrfFold2_in (l : List ScoredB) :
    ∀ (L : List Nat) (r0 : Nat) (m : Str → Option ℚ) {i : Nat},
      i ∈ L → L.Nodup → (∀ j ∈ L, idAt l j = idAt l i → j = i) →
      rrfFold2 l r0 L m (idAt l i) =
        some (dGet0 m (idAt l i) +
          1 / (60 + ((r0 + L.indexOf i : Nat) : ℚ) + 1)) := by
  intro L
  induction L with
  | nil => intro r0 m i hi; simp at hi
  | cons j0 rest ih =>
    intro r0 m i hi hnd hinj
    by_cases hji : j0 = i
    · subst hji
      unfold rrfFold2
      have hrest : ∀ j ∈ rest, idAt l j ≠ idAt l j0 := by
        intro j hj he
        have := hinj j (List.mem_cons_of_mem j0 hj) he
        subst this
        exact (List.nodup_cons.mp hnd).1 hj
      rw [rrfFold2_notin l rest (r0 + 1) _ _ hrest]
      unfold dictUpd
      rw [if_pos rfl]
      rw [List.indexOf_cons_self]
      norm_num
    · have hirest : i ∈ rest := by
        rcases List.mem_cons.mp hi with h | h
        · exact absurd h.symm hji
        · exact h
      unfold rrfFold2
      rw [ih (r0 + 1) _ hirest (List.nodup_cons.mp hnd).2
        (fun j hj => hinj j (List.mem_cons_of_mem j0 hj))]
      have hkey : dGet0 (dictUpd m (idAt l j0)
          (dGet0 m (idAt l j0) + 1 / (60 + (r0 : ℚ) + 1))) (idAt l i) =
          dGet0 m (idAt l i) := by
        unfold dGet0 dictUpd
        rw [if_neg]
        intro he
        exact hji (hinj j0 (List.mem_cons_self j0 rest) he.symm)
      rw [hkey, List.indexOf_cons_ne _ hji]
      congr 2
      push_cast
      ring

/-! ### The rankings are sorted by the strict "ahead" orders -/

theorem vAhead_asym (l : List ScoredB) (hwf : ∀ k, (vsAt l k).IsVal)
    (a b : Nat) (h1 : vAhead l a b = true) (h2 : vAhead l b a = true) :
    False := by
  unfold vAhead at h1 h2
  rcases Bool.or_eq_true_iff.mp h1 with hg1 | ht1 <;>
    rcases Bool.or_eq_true_iff.mp h2 with hg2 | ht2
  · rw [pyGt_iff_gv (hwf a) (hwf b)] at hg1
    rw [pyGt_iff_gv (hwf b) (hwf a)] at hg2
    linarith
  · obtain ⟨⟨hge1, hge2⟩, -⟩ := by
      simpa [Bool.and_eq_true] using ht2
    rw [pyGt_iff_gv (hwf a) (hwf b)] at hg1
    rw [pyGe_iff_gv (hwf b) (hwf a)] at hge1
    linarith
  · obtain ⟨⟨hge1, hge2⟩, -⟩ := by
      simpa [Bool.and_eq_true] using ht1
    rw [pyGt_iff_gv (hwf b) (hwf a)] at hg2
    rw [pyGe_iff_gv (hwf a) (hwf b)] at hge1
    linarith
  · obtain ⟨-, hab⟩ := by simpa [Bool.and_eq_true] using ht1
    obtain ⟨-, hba⟩ := by simpa [Bool.and_eq_true] using ht2
    omega

theorem bAhead_asym (l : List ScoredB) (a b : Nat)
    (h1 : bAhead l a b = true) (h2 : bAhead l b a = true) : False := by
  unfold bAhead at h1 h2
  rcases Bool.or_eq_true_iff.mp h1 with hg1 | ht1 <;>
    rcases Bool.or_eq_true_iff.mp h2 with hg2 | ht2 <;>
    simp only [Bool.and_eq_true, decide_eq_true_eq] at *
  · linarith
  · linarith [ht2.1, hg1]
  · linarith [ht1.1, hg2]
  · omega

theorem vector_ranked_pairwise (l : List ScoredB)
    (hwf : ∀ k, (vsAt l k).IsVal) :
    (vector_ranked l).Pairwise (fun a b => vAhead l a b = true) := by
  haveI : IsTotal Nat (vRel l) := ⟨fun i j => pyGe_total (hwf i) (hwf j)⟩
  haveI : IsTrans Nat (vRel l) :=
    ⟨fun i j k hij hjk => pyGe_trans (hwf i) (hwf j) (hwf k) hij hjk⟩
  have hsorted : (vector_ranked l).Pairwise (vRel l) :=
    List.sorted_insertionSort (vRel l) (List.range l.length)
  have hperm : (vector_ranked l).Perm (List.range l.length) :=
    List.perm_insertionSort (vRel l) (List.range l.length)
  have hnd : (vector_ranked l).Nodup :=
    hperm.nodup_iff.mpr (List.nodup_range l.length)
  rw [List.pairwise_iff_forall_sublist]
  intro a b hab
  have h1 : vRel l a b := List.pairwise_iff_forall_sublist.mp hsorted hab
  have haVR : a ∈ vector_ranked l := hab.subset (by simp)
  have hbVR : b ∈ vector_ranked l := hab.subset (by simp)
  have han : a < l.length := List.mem_range.mp (hperm.mem_iff.mp haVR)
  have hbn : b < l.length := List.mem_range.mp (hperm.mem_iff.mp hbVR)
  have hidx : (vector_ranked l).indexOf a < (vector_ranked l).indexOf b :=
    sublist_pair_idxOf hnd hab
  by_cases h2 : vRel l b a
  · -- tie on score: stability forces a < b
    have hne : a ≠ b := by
      intro he
      subst he
      omega
    have hlt : a < b := by
      rcases Nat.lt_or_ge a b with h | h
      · exact h
      · have hba : b < a := by omega
        have hr : List.Sublist [b, a] (List.range l.length) :=
          pair_sublist_range hba han
        have hvr : List.Sublist [b, a] (vector_ranked l) :=
          List.pair_sublist_insertionSort (r := vRel l) h2 hr
        have := sublist_pair_idxOf hnd hvr
        omega
    unfold vAhead
    unfold vRel at h1 h2
    simp [h1, h2, hlt]
  · -- strict: a is strictly greater
    unfold vAhead
    have hgt : pyGt (vsAt l a) (vsAt l b) = true := by
      rw [pyGt_iff_gv (hwf a) (hwf b)]
      unfold vRel at h1 h2
      rw [pyGe_iff_gv (hwf a) (hwf b)] at h1
      have h2' : ¬ gv (vsAt l a) ≤ gv (vsAt l b) := by
        intro hle
        exact h2 ((pyGe_iff_gv (hwf b) (hwf a)).mpr hle)
      linarith [lt_of_not_le h2']
    simp [hgt]

theorem bm25_ranked_pairwise (l : List ScoredB) :
    (bm25_ranked l).Pairwise (fun a b => bAhead l a b = true) := by
  haveI : IsTotal Nat (bRel l) := ⟨fun i j => le_total (bsAt l j) (bsAt l i)⟩
  haveI : IsTrans Nat (bRel l) :=
    ⟨fun i j k hij hjk => le_trans hjk hij⟩
  have hsorted : (bm25_ranked l).Pairwise (bRel l) :=
    List.sorted_insertionSort (bRel l) (List.range l.length)
  have hperm : (bm25_ranked l).Perm (List.range l.length) :=
    List.perm_insertionSort (bRel l) (List.range l.length)
  have hnd : (bm25_ranked l).Nodup :=
    hperm.nodup_iff.mpr (List.nodup_range l.length)
  rw [List.pairwise_iff_forall_sublist]
  intro a b hab
  have h1 : bRel l a b := List.pairwise_iff_forall_sublist.mp hsorted hab
  have han : a < l.length :=
    List.mem_range.mp (hperm.mem_iff.mp (hab.subset (by simp)))
  have hidx : (bm25_ranked l).indexOf a < (bm25_ranked l).indexOf b :=
    sublist_pair_idxOf hnd hab
  by_cases h2 : bRel l b a
  · have hne : a ≠ b := by
      intro he
      subst he
      omega
    have hlt : a < b := by
      rcases Nat.lt_or_ge a b with h | h
      · exact h
      · have hba : b < a := by omega
        have hr : List.Sublist [b, a] (List.range l.length) :=
          pair_sublist_range hba han
        have hvr : List.Sublist [b, a] (bm25_ranked l) :=
          List.pair_sublist_insertionSort (r := bRel l) h2 hr
        have := sublist_pair_idxOf hnd hvr
        omega
    unfold bAhead
    unfold bRel at h1 h2
    have : bsAt l b = bsAt l a := le_antisymm h1 h2
    simp [this, hlt]
  · unfold bAhead
    unfold bRel at h1 h2
    have hgt : bsAt l b < bsAt l a := lt_of_le_of_ne h1 (fun he => h2 (le_of_eq he.symm))
    simp [hgt]

/-! ### C1: the fused RRF score formula -/

theorem mem_attachBM25_base {scored : List ScoredChunk} {bs : List ℚ}
    {c : ScoredB} (h : c ∈ attachBM25 scored bs) : c.toScoredChunk ∈ scored := by
  have hbase := attachBM25Go_map_base bs scored 0
  rw [← hbase]
  exact List.mem_map_of_mem _ h

theorem vsAt_attach_isVal {scored : List ScoredChunk} {bs : List ℚ}
    (hwf : ∀ c ∈ scored, c.vector_score.IsVal) :
    ∀ k, (vsAt (attachBM25 scored bs) k).IsVal := by
  intro k
  unfold vsAt
  by_cases hk : k < (attachBM25 scored bs).length
  · have hmem : (attachBM25 scored bs).getD k default ∈ attachBM25 scored bs := by
      rw [List.getD_eq_getElem _ _ hk]
      exact List.getElem_mem hk
    exact hwf _ (mem_attachBM25_base hmem)
  · rw [List.getD_eq_default _ _ (Nat.le_of_not_lt hk)]
    exact ratv_isVal 0

/-- C1: in the hybrid path every candidate's fused score is
`1/(60 + rv) + 1/(60 + rb)`, where `rv` and `rb` are the candidate's
1-based rank positions in the vector-score-descending and
BM25-score-descending orderings of the candidate set, ties broken by
stable input order (`rankV` and `rankB` count the candidates strictly
ahead).  Stated both for the score-assignment step over all candidates and
for every chunk retained by `_hybrid_rrf_search`. -/
theorem c1_hybrid_fused_rrf (f : List (List Str) → List Str → List ℚ)
    (scored : List ScoredChunk) (query : Str) (ms : ℚ) (wb : List ScoredB)
    (hids : (scored.map (·.id)).Nodup)
    (hwf : ∀ c ∈ scored, c.vector_score.IsVal)
    (hwb : wb = attachBM25 scored
      (f (scored.map fun s => _tokenize s.text) (_tokenize query))) :
    (∀ i, i < wb.length →
      ((attachRRF wb).getD i ⟨default, ratv 0⟩).score =
        ratv (1 / (60 + (rankV wb i : ℚ)) + 1 / (60 + (rankB wb i : ℚ)))) ∧
    (∀ r ∈ _hybrid_rrf_search f scored query ms, ∃ i, i < wb.length ∧
      r.id = idAt wb i ∧
      r.score = ratv (1 / (60 + (rankV wb i : ℚ)) + 1 / (60 + (rankB wb i : ℚ)))) := by
  have hids' : (wb.map (·.id)).Nodup := by
    rw [hwb, attachBM25_map_id]
    exact hids
  have hwf' : ∀ k, (vsAt wb k).IsVal := by
    rw [hwb]
    exact vsAt_attach_isVal hwf
  have hkey : ∀ i, i < wb.length →
      dGet0 (rrf_scores wb) (idAt wb i) =
        1 / (60 + (rankV wb i : ℚ)) + 1 / (60 + (rankB wb i : ℚ)) := by
    intro i hi
    have hVRperm : (vector_ranked wb).Perm (List.range wb.length) :=
      List.perm_insertionSort (vRel wb) (List.range wb.length)
    have hBRperm : (bm25_ranked wb).Perm (List.range wb.length) :=
      List.perm_insertionSort (bRel wb) (List.range wb.length)
    have hVRnd : (vector_ranked wb).Nodup :=
      hVRperm.nodup_iff.mpr (List.nodup_range wb.length)
    have hBRnd : (bm25_ranked wb).Nodup :=
      hBRperm.nodup_iff.mpr (List.nodup_range wb.length)
    have hiVR : i ∈ vector_ranked wb :=
      hVRperm.mem_iff.mpr (List.mem_range.mpr hi)
    have hiBR : i ∈ bm25_ranked wb :=
      hBRperm.mem_iff.mpr (List.mem_range.mpr hi)
    have hinjVR : ∀ j ∈ vector_ranked wb, idAt wb j = idAt wb i → j = i := by
      intro j hj he
      exact idAt_inj hids' (List.mem_range.mp (hVRperm.mem_iff.mp hj)) hi he
    have hinjBR : ∀ j ∈ bm25_ranked wb, idAt wb j = idAt wb i → j = i := by
      intro j hj he
      exact idAt_inj hids' (List.mem_range.mp (hBRperm.mem_iff.mp hj)) hi he
    have hV : (vector_ranked wb).indexOf i =
        ((List.range wb.length).filter (fun j => vAhead wb j i)).length := by
      rw [idxOf_eq_filter_length hVRnd (vector_ranked_pairwise wb hwf')
        (fun a _ b _ => vAhead_asym wb hwf' a b) hiVR]
      exact (hVRperm.filter _).length_eq
    have hB : (bm25_ranked wb).indexOf i =
        ((List.range wb.length).filter (fun j => bAhead wb j i)).length := by
      rw [idxOf_eq_filter_length hBRnd (bm25_ranked_pairwise wb)
        (fun a _ b _ => bAhead_asym wb a b) hiBR]
      exact (hBRperm.filter _).length_eq
    unfold rrf_scores dGet0
    rw [rrfFold2_in wb (bm25_ranked wb) 0 _ hiBR hBRnd hinjBR]
    simp only [Option.getD_some]
    have hfold1 : dGet0 (rrfFold1 wb 0 (vector_ranked wb) (fun _ => none))
        (idAt wb i) = 1 / (60 + (((vector_ranked wb).indexOf i : Nat) : ℚ) + 1) := by
      unfold dGet0
      rw [rrfFold1_in wb (vector_ranked wb) 0 _ hiVR hVRnd hinjVR]
      simp
    rw [hfold1, hV, hB]
    unfold rankV rankB
    push_cast
    ring
  constructor
  · intro i hi
    have hmap : (attachRRF wb).getD i ⟨default, ratv 0⟩ =
        (fun c => (⟨c, ratv (dGet0 (rrf_scores wb) c.id)⟩ : HybChunk))
          (wb.getD i default) := by
      unfold attachRRF
      exact getD_map_lt _ wb i hi default _
    rw [hmap]
    have := hkey i hi
    unfold idAt at this
    simp only []
    rw [this]
  · intro r hr
    have hr' : r ∈ (attachRRF wb).filter (fun c => hybridFilter ms c) := by
      have : _hybrid_rrf_search f scored query ms =
          (attachRRF wb).filter (fun c => hybridFilter ms c) := by
        rw [hwb]
        rfl
      rw [← this]
      exact hr
    have hmem := List.mem_of_mem_filter hr'
    obtain ⟨c, hc, rfl⟩ := List.mem_map.mp hmem
    obtain ⟨⟨i, hi⟩, hci⟩ := List.mem_iff_get.mp hc
    refine ⟨i, hi, ?_, ?_⟩
    · show c.id = idAt wb i
      unfold idAt
      rw [List.getD_eq_getElem _ _ hi]
      rw [← hci]
      rfl
    · show ratv (dGet0 (rrf_scores wb) c.id) = _
      have hcid : c.id = idAt wb i := by
        unfold idAt
        rw [List.getD_eq_getElem _ _ hi, ← hci]
        rfl
      rw [hcid, hkey i hi]

/-- C1 witness: the fused-score formula applied to the concrete two-chunk
candidate set at input position 0. -/
theorem c1_witness :
    ((attachRRF fixWb).getD 0 ⟨default, ratv 0⟩).score =
      ratv (1 / (60 + (rankV fixWb 0 : ℚ)) + 1 / (60 + (rankB fixWb 0 : ℚ))) :=
  (c1_hybrid_fused_rrf fixBM fixScored "q".toList 0 fixWb
    (by decide) (by decide) rfl).1 0 (by decide)

/-! ### nws basics -/

theorem nws_nil : nws [] = [] := rfl

theorem nws_append (a b : Str) : nws (a ++ b) = nws a ++ nws b :=
  List.filter_append ..


theorem nwsJ_nil : nwsJ [] = [] := rfl

theorem nwsJ_cons (x : Str) (l : List Str) : nwsJ (x :: l) = nws x ++ nwsJ l := by
  simp [nwsJ]

theorem nwsJ_append (a b : List Str) : nwsJ (a ++ b) = nwsJ a ++ nwsJ b := by
  simp [nwsJ]

theorem nwsJ_single (x : Str) : nwsJ [x] = nws x := by
  simp [nwsJ]

theorem nws_flatten (l : List Str) : nws l.flatten = nwsJ l := by
  induction l with
  | nil => rfl
  | cons x xs ih => rw [List.flatten_cons, nws_append, nwsJ_cons, ih]

theorem nws_cons_split (c : Char) (s : Str) : nws (c :: s) = nws [c] ++ nws s := by
  by_cases hc : isWS c <;> simp [nws, List.filter_cons, hc]

theorem nws_ws {s : Str} (h : ∀ c ∈ s, isWS c = true) : nws s = [] := by
  simp only [nws, List.filter_eq_nil_iff]
  intro c hc
  simp [h c hc]

theorem nws_reverse (s : Str) : nws s.reverse = (nws s).reverse :=
  List.filter_reverse ..

theorem nws_dropWhileWS (s : Str) : nws (s.dropWhile isWS) = nws s := by
  conv_rhs => rw [← List.takeWhile_append_dropWhile (p := isWS) (l := s)]
  rw [nws_append, nws_ws (fun c hc => List.mem_takeWhile_imp hc)]
  rfl

theorem nws_pyStrip (s : Str) : nws (pyStrip s) = nws s := by
  rw [pyStrip, nws_reverse, nws_dropWhileWS, nws_reverse, List.reverse_reverse,
    nws_dropWhileWS]

theorem nws_pyJoin (sep : Str) (h : ∀ c ∈ sep, isWS c = true) (l : List Str) :
    nws (pyJoin sep l) = nwsJ l := by
  induction l with
  | nil => rfl
  | cons x xs ih =>
    cases xs with
    | nil => simp [pyJoin, nwsJ]
    | cons y ys =>
      rw [pyJoin, nws_append, nws_append, nws_ws h, nwsJ_cons, ih]
      all_goals simp

theorem flatten_map_singleton (l : Str) :
    (l.map (fun c => [c])).flatten = l := by
  induction l with
  | nil => rfl
  | cons c cs ih => simp [ih]

/-! ### Split losslessness -/

theorem ssGo_nws (acc l : Str) :
    nwsJ (ssGo acc l) = nws acc.reverse ++ nws l := by
  induction acc, l using ssGo.induct with
  | case1 acc => simp [ssGo, nwsJ, nws_nil]
  | case2 acc c rest h hup ih =>
    rw [ssGo, dif_pos h, if_pos hup, nwsJ_cons, ih]
    rw [nws_dropWhileWS, nws_reverse, nws_cons_split]
    simp [nws_nil]
  | case3 acc c rest h hup ih =>
    rw [ssGo, dif_pos h, if_neg hup, ih]
    rw [List.reverse_cons, nws_append, nws_cons_split c rest]
    simp [nws_nil]
  | case4 acc c rest h ih =>
    rw [ssGo, dif_neg h, ih]
    rw [List.reverse_cons, nws_append, nws_cons_split c rest]
    simp [nws_nil]

theorem splitSentences_nws (t : Str) : nwsJ (splitSentences t) = nws t := by
  rw [splitSentences, ssGo_nws]
  rfl

theorem sbGo_nws (acc l : Str) :
    nwsJ (sbGo acc l) = nws acc.reverse ++ nws l := by
  induction acc, l using sbGo.induct with
  | case1 acc => simp [sbGo, nwsJ, nws_nil]
  | case2 acc c rest h ih =>
    rw [sbGo, dif_pos h, nwsJ_cons, ih]
    rw [nws_dropWhileWS, nws_reverse, nws_cons_split]
    simp [nws_nil]
  | case3 acc c rest h ih =>
    rw [sbGo, dif_neg h, ih]
    rw [List.reverse_cons, nws_append, nws_cons_split c rest]
    simp [nws_nil]

theorem spGo_nws (acc l : Str) :
    nwsJ (spGo acc l) = nws acc.reverse ++ nws l := by
  induction acc, l using spGo.induct with
  | case1 acc => simp [spGo, nwsJ, nws_nil]
  | case2 acc rest p heq ih =>
    simp only [spGo, heq, if_true]
    rw [nwsJ_cons, ih]
    have hws : ∀ x ∈ rest.takeWhile isWS, isWS x = true :=
      fun x hx => List.mem_takeWhile_imp hx
    have h2 : nws p.val.2 = [] := by
      refine nws_ws fun x hx => hws x ?_
      rw [p.property.1]
      exact List.mem_append_right _ hx
    have h3 : nws ('\n' :: rest) = nws (rest.dropWhile isWS) := by
      rw [nws_cons_split, nws_ws (by intro x hx; simp at hx; simp [hx, isWS]),
        nws_dropWhileWS]
      rfl
    rw [nws_append, h2, h3]
    simp [nws_nil]
  | case3 acc rest heq ih =>
    simp only [spGo, heq, if_true] at ih ⊢
    rw [ih, List.reverse_cons, nws_append, nws_cons_split '\n' rest]
    simp [nws_nil]
  | case4 acc c rest h ih =>
    rw [spGo, if_neg h, ih]
    rw [List.reverse_cons, nws_append, nws_cons_split c rest]
    simp [nws_nil]

theorem splitParas_nws (t : Str) : nwsJ (splitParas t) = nws t := by
  rw [splitParas, spGo_nws]
  rfl

theorem sksGo_flatten (sep : Str) (acc l : Str) :
    (sksGo sep acc l).flatten = acc.reverse ++ l := by
  induction acc, l using sksGo.induct sep with
  | case1 acc => simp [sksGo]
  | case2 acc c rest h ih =>
    rw [sksGo, dif_pos h, List.flatten_cons, ih]
    have h2 : sep ++ (c :: rest).drop sep.length = c :: rest := by
      conv_rhs => rw [← List.take_append_drop sep.length (c :: rest), h.2]
    simp [h2]
  | case3 acc c rest h ih =>
    rw [sksGo, dif_neg h, ih]
    simp

theorem recSplitPieces_flatten (size : Nat) (seps : List Str) (text : Str) :
    (recSplitPieces size seps text).flatten = text := by
  induction seps generalizing text with
  | nil =>
    rw [recSplitPieces]
    split
    · simp
    · exact flatten_map_singleton text
  | cons sep seps ih =>
    rw [recSplitPieces]
    split
    · simp
    · have key : ∀ ps : List Str,
          ((ps.map (fun p => recSplitPieces size seps p)).flatten).flatten
            = ps.flatten := by
        intro ps
        induction ps with
        | nil => rfl
        | cons p ps ihp =>
          rw [List.map_cons, List.flatten_cons, List.flatten_append, ihp, ih p,
            List.flatten_cons]
      rw [key, sksGo_flatten]
      rfl

/-! ### Flush and index lemmas -/

theorem sentFlush_nws (chunks : List DocChunk) (cur : List Str) :
    nwsJ ((sentFlush chunks cur).map DocChunk.text)
      = nwsJ (chunks.map DocChunk.text) ++ nwsJ cur := by
  rw [sentFlush]
  split
  · rename_i h
    simp [h, nwsJ_nil]
  · rw [List.map_append]
    simp [nwsJ_append, nwsJ_single, nws_pyJoin [' '] (by decide)]

theorem semFlush_nws (chunks : List DocChunk) (cur : List Str) :
    nwsJ ((semFlush chunks cur).map DocChunk.text)
      = nwsJ (chunks.map DocChunk.text) ++ nwsJ cur := by
  rw [semFlush]
  split
  · rename_i h
    simp [h, nwsJ_nil]
  · rw [List.map_append]
    simp [nwsJ_append, nwsJ_single, nws_pyJoin ('\n' :: '\n' :: []) (by decide)]

theorem recFlush_nws (out cur : List Str) :
    nwsJ (recFlush out cur) = nwsJ out ++ nwsJ cur := by
  rw [recFlush]
  split
  · rename_i h
    have : nwsJ cur = [] := by
      rw [← nws_flatten, ← nws_pyStrip, h, nws_nil]
    simp [this]
  · rw [nwsJ_append, nwsJ_single, nws_pyStrip, nws_flatten]

theorem idx_snoc {chunks : List DocChunk}
    (h : chunks.map DocChunk.chunk_index = List.range chunks.length)
    (t s : Str) :
    (chunks ++ [(⟨t, chunks.length, s⟩ : DocChunk)]).map DocChunk.chunk_index
      = List.range (chunks ++ [(⟨t, chunks.length, s⟩ : DocChunk)]).length := by
  rw [List.map_append, h, List.length_append]
  simp [List.range_succ]

theorem sentFlush_idx {chunks : List DocChunk} (cur : List Str)
    (h : chunks.map DocChunk.chunk_index = List.range chunks.length) :
    (sentFlush chunks cur).map DocChunk.chunk_index
      = List.range (sentFlush chunks cur).length := by
  rw [sentFlush]
  split
  · exact h
  · exact idx_snoc h _ _

theorem semFlush_idx {chunks : List DocChunk} (cur : List Str)
    (h : chunks.map DocChunk.chunk_index = List.range chunks.length) :
    (semFlush chunks cur).map DocChunk.chunk_index
      = List.range (semFlush chunks cur).length := by
  rw [semFlush]
  split
  · exact h
  · exact idx_snoc h _ _

/-! ### Sentence strategy: loop invariants -/

theorem sentLoop_nws (size ov : Nat) (ss : List Str) :
    ∀ (chunks : List DocChunk) (cur : List Str) (clen : Nat),
      List.Sublist
        (nwsJ (chunks.map DocChunk.text) ++ (nwsJ cur ++ nwsJ ss))
        (nwsJ ((sentLoop size ov chunks cur clen ss).map DocChunk.text)) := by
  induction ss with
  | nil =>
    intro chunks cur clen
    simp only [sentLoop, sentFlush_nws, nwsJ_nil, List.append_nil]
    exact List.Sublist.refl _
  | cons s ss ih =>
    intro chunks cur clen
    by_cases h1 : pyStrip s = []
    · simp only [sentLoop, if_pos h1]
      have hs : nws s = [] := by rw [← nws_pyStrip, h1, nws_nil]
      simpa [nwsJ_cons, hs] using ih chunks cur clen
    · by_cases h2 : size < clen + (pyStrip s).length ∧ cur ≠ []
      · simp only [sentLoop, if_neg h1, if_pos h2]
        have hmain := ih (sentFlush chunks cur)
          ((ovLoop ov cur.reverse [] 0).1 ++ [pyStrip s])
          ((ovLoop ov cur.reverse [] 0).2 + (pyStrip s).length + 1)
        rw [sentFlush_nws, nwsJ_append, nwsJ_single, nws_pyStrip] at hmain
        simp only [List.append_assoc] at hmain
        rw [nwsJ_cons]
        refine List.Sublist.trans ?_ hmain
        exact ((List.sublist_append_right _ _).append_left _).append_left _
      · simp only [sentLoop, if_neg h1, if_neg h2]
        have hmain := ih chunks (cur ++ [pyStrip s])
          (clen + (pyStrip s).length + 1)
        rw [nwsJ_append, nwsJ_single, nws_pyStrip] at hmain
        simpa [nwsJ_cons, List.append_assoc] using hmain

theorem sentLoop_idx (size ov : Nat) (ss : List Str) :
    ∀ (chunks : List DocChunk) (cur : List Str) (clen : Nat),
      chunks.map DocChunk.chunk_index = List.range chunks.length →
      (sentLoop size ov chunks cur clen ss).map DocChunk.chunk_index
        = List.range (sentLoop size ov chunks cur clen ss).length := by
  induction ss with
  | nil =>
    intro chunks cur clen h
    simp only [sentLoop]
    exact sentFlush_idx cur h
  | cons s ss ih =>
    intro chunks cur clen h
    by_cases h1 : pyStrip s = []
    · simp only [sentLoop, if_pos h1]
      exact ih chunks cur clen h
    · by_cases h2 : size < clen + (pyStrip s).length ∧ cur ≠ []
      · simp only [sentLoop, if_neg h1, if_pos h2]
        exact ih _ _ _ (sentFlush_idx cur h)
      · simp only [sentLoop, if_neg h1, if_neg h2]
        exact ih _ _ _ h

/-! ### Semantic strategy: loop invariants -/

theorem semInner_nws (mx : Nat) (ss : List Str) :
    ∀ (chunks : List DocChunk) (temp : List Str) (tlen : Nat),
      nwsJ (((semInner mx chunks temp tlen ss).1).map DocChunk.text)
          ++ nwsJ (semInner mx chunks temp tlen ss).2.1
        = nwsJ (chunks.map DocChunk.text) ++ (nwsJ temp ++ nwsJ ss) := by
  induction ss with
  | nil =>
    intro chunks temp tlen
    simp [semInner, nwsJ_nil]
  | cons s ss ih =>
    intro chunks temp tlen
    by_cases h : mx < tlen + s.length ∧ temp ≠ []
    · simp only [semInner, if_pos h]
      rw [ih]
      rw [List.map_append]
      simp [nwsJ_append, nwsJ_single, nwsJ_cons, nwsJ_nil,
        nws_pyJoin [' '] (by decide), List.append_assoc]
    · simp only [semInner, if_neg h]
      rw [ih]
      simp [nwsJ_append, nwsJ_single, nwsJ_cons, nwsJ_nil, List.append_assoc]

theorem semInner_idx (mx : Nat) (ss : List Str) :
    ∀ (chunks : List DocChunk) (temp : List Str) (tlen : Nat),
      chunks.map DocChunk.chunk_index = List.range chunks.length →
      ((semInner mx chunks temp tlen ss).1).map DocChunk.chunk_index
        = List.range ((semInner mx chunks temp tlen ss).1).length := by
  induction ss with
  | nil =>
    intro chunks temp tlen h
    exact h
  | cons s ss ih =>
    intro chunks temp tlen h
    by_cases hc : mx < tlen + s.length ∧ temp ≠ []
    · simp only [semInner, if_pos hc]
      exact ih _ _ _ (idx_snoc h _ _)
    · simp only [semInner, if_neg hc]
      exact ih _ _ _ h

theorem semLoop_nws (mx : Nat) (ps : List Str) :
    ∀ (chunks : List DocChunk) (cur : List Str) (clen : Nat),
      nwsJ ((semLoop mx chunks cur clen ps).map DocChunk.text)
        = nwsJ (chunks.map DocChunk.text) ++ (nwsJ cur ++ nwsJ ps) := by
  induction ps with
  | nil =>
    intro chunks cur clen
    simp only [semLoop, semFlush_nws, nwsJ_nil, List.append_nil]
  | cons p ps ih =>
    intro chunks cur clen
    by_cases h1 : pyStrip p = []
    · simp only [semLoop, if_pos h1]
      have hp : nws p = [] := by rw [← nws_pyStrip, h1, nws_nil]
      simp [nwsJ_cons, hp, ih chunks cur clen]
    · by_cases h2 : mx < (pyStrip p).length
      · simp only [semLoop, if_neg h1, if_pos h2]
        have hInner := semInner_nws mx (sbGo [] (pyStrip p))
          (semFlush chunks cur) [] 0
        rw [semFlush_nws, sbGo_nws, nws_pyStrip] at hInner
        simp only [nwsJ_nil, List.nil_append, List.reverse_nil, nws_nil]
          at hInner
        by_cases h3 :
            (semInner mx (semFlush chunks cur) [] 0 (sbGo [] (pyStrip p))).2.1 = []
        · simp only [if_pos h3]
          rw [ih]
          rw [h3, nwsJ_nil, List.append_nil] at hInner
          have hc1 : nwsJ (if cur = [] then cur else []) = [] := by
            split
            · rename_i hcc
              rw [hcc, nwsJ_nil]
            · rw [nwsJ_nil]
          rw [hc1, hInner, nwsJ_cons]
          simp [List.append_assoc]
        · simp only [if_neg h3]
          rw [ih, nwsJ_single, nws_pyJoin [' '] (by decide),
            ← List.append_assoc, hInner, nwsJ_cons]
          simp [List.append_assoc]
      · by_cases h4 : mx < clen + (pyStrip p).length ∧ cur ≠ []
        · simp only [semLoop, if_neg h1, if_neg h2, if_pos h4]
          rw [ih, semFlush_nws, nwsJ_single, nws_pyStrip, nwsJ_cons]
          simp [List.append_assoc]
        · simp only [semLoop, if_neg h1, if_neg h2, if_neg h4]
          rw [ih, nwsJ_append, nwsJ_single, nws_pyStrip, nwsJ_cons]
          simp [List.append_assoc]

theorem semLoop_idx (mx : Nat) (ps : List Str) :
    ∀ (chunks : List DocChunk) (cur : List Str) (clen : Nat),
      chunks.map DocChunk.chunk_index = List.range chunks.length →
      (semLoop mx chunks cur clen ps).map DocChunk.chunk_index
        = List.range (semLoop mx chunks cur clen ps).length := by
  induction ps with
  | nil =>
    intro chunks cur clen h
    simp only [semLoop]
    exact semFlush_idx cur h
  | cons p ps ih =>
    intro chunks cur clen h
    by_cases h1 : pyStrip p = []
    · simp only [semLoop, if_pos h1]
      exact ih _ _ _ h
    · by_cases h2 : mx < (pyStrip p).length
      · simp only [semLoop, if_neg h1, if_pos h2]
        have hi := semInner_idx mx (sbGo [] (pyStrip p))
          (semFlush chunks cur) [] 0 (semFlush_idx cur h)
        by_cases h3 :
            (semInner mx (semFlush chunks cur) [] 0 (sbGo [] (pyStrip p))).2.1 = []
        · simp only [if_pos h3]
          exact ih _ _ _ hi
        · simp only [if_neg h3]
          exact ih _ _ _ hi
      · by_cases h4 : mx < clen + (pyStrip p).length ∧ cur ≠ []
        · simp only [semLoop, if_neg h1, if_neg h2, if_pos h4]
          exact ih _ _ _ (semFlush_idx cur h)
        · simp only [semLoop, if_neg h1, if_neg h2, if_neg h4]
          exact ih _ _ _ h

/-! ### Recursive strategy: merge invariants -/

theorem recMergeLoop_nws (size ov : Nat) (ps : List Str) :
    ∀ (out cur : List Str) (clen : Nat),
      List.Sublist (nwsJ out ++ (nwsJ cur ++ nwsJ ps))
        (nwsJ (recMergeLoop size ov out cur clen ps)) := by
  induction ps with
  | nil =>
    intro out cur clen
    simp only [recMergeLoop, recFlush_nws, nwsJ_nil, List.append_nil]
    exact List.Sublist.refl _
  | cons p ps ih =>
    intro out cur clen
    by_cases h : size < clen + p.length ∧ cur ≠ []
    · simp only [recMergeLoop, if_pos h]
      have hmain := ih (recFlush out cur)
        ((recOv ov cur.reverse [] 0).1 ++ [p])
        ((recOv ov cur.reverse [] 0).2 + p.length)
      rw [recFlush_nws, nwsJ_append, nwsJ_single] at hmain
      simp only [List.append_assoc] at hmain
      rw [nwsJ_cons]
      refine List.Sublist.trans ?_ hmain
      exact ((List.sublist_append_right _ _).append_left _).append_left _
    · simp only [recMergeLoop, if_neg h]
      have hmain := ih out (cur ++ [p]) (clen + p.length)
      rw [nwsJ_append, nwsJ_single] at hmain
      simpa [nwsJ_cons, List.append_assoc] using hmain

/-! ### Per-strategy contract lemmas -/

theorem recursiveChunk_texts (size ov : Nat) (text : Str) :
    (recursiveChunk size ov text).map DocChunk.text
      = recMergeLoop size ov [] [] 0 (recSplitPieces size recSeps text) := by
  rw [recursiveChunk, List.map_map]
  exact List.enum_map_snd _

theorem recursiveChunk_idx (size ov : Nat) (text : Str) :
    (recursiveChunk size ov text).map DocChunk.chunk_index
      = List.range (recursiveChunk size ov text).length := by
  rw [recursiveChunk, List.map_map, List.length_map, List.enum_length]
  exact List.enum_map_fst _

theorem recursiveChunk_reconstructs (size ov : Nat) (text : Str) :
    List.Sublist (nws text)
      (nws (((recursiveChunk size ov text).map DocChunk.text).flatten)) := by
  rw [nws_flatten, recursiveChunk_texts]
  have h2 : nwsJ (recSplitPieces size recSeps text) = nws text := by
    rw [← nws_flatten, recSplitPieces_flatten]
  have h := recMergeLoop_nws size ov (recSplitPieces size recSeps text) [] [] 0
  rw [h2] at h
  simpa [nwsJ_nil] using h

theorem sentenceChunk_reconstructs (size ov : Nat) (text : Str) :
    List.Sublist (nws text)
      (nws (((sentenceChunk size ov text).map DocChunk.text).flatten)) := by
  rw [nws_flatten, sentenceChunk]
  have h := sentLoop_nws size ov (splitSentences text) [] [] 0
  rw [splitSentences_nws] at h
  simpa [nwsJ_nil] using h

theorem semanticChunk_reconstructs (mn mx : Nat) (text : Str) :
    List.Sublist (nws text)
      (nws (((semanticChunk mn mx text).map DocChunk.text).flatten)) := by
  rw [nws_flatten, semanticChunk, semLoop_nws, splitParas_nws]
  simp only [List.map_nil, nwsJ_nil, List.nil_append]
  exact List.Sublist.refl _

theorem sentenceChunk_idx (size ov : Nat) (text : Str) :
    (sentenceChunk size ov text).map DocChunk.chunk_index
      = List.range (sentenceChunk size ov text).length := by
  rw [sentenceChunk]
  exact sentLoop_idx size ov (splitSentences text) [] [] 0 rfl

theorem semanticChunk_idx (mn mx : Nat) (text : Str) :
    (semanticChunk mn mx text).map DocChunk.chunk_index
      = List.range (semanticChunk mn mx text).length := by
  rw [semanticChunk]
  exact semLoop_idx mx (splitParas text) [] [] 0 rfl

theorem sentenceChunk_empty (size ov : Nat) : sentenceChunk size ov [] = [] := by
  rw [sentenceChunk, splitSentences, ssGo]
  rfl

theorem semanticChunk_empty (mn mx : Nat) : semanticChunk mn mx [] = [] := by
  rw [semanticChunk, splitParas, spGo]
  rfl

theorem recSplitPieces_nil_text (size : Nat) (seps : List Str) :
    recSplitPieces size seps [] = [[]] := by
  cases seps with
  | nil =>
    rw [recSplitPieces]
    simp
  | cons s ss =>
    rw [recSplitPieces]
    simp

theorem recursiveChunk_empty (size ov : Nat) : recursiveChunk size ov [] = [] := by
  rw [recursiveChunk, recSplitPieces_nil_text]
  rfl

/-- C8: for every input text and each chunking strategy (recursive, sentence,
semantic), the returned chunks satisfy the chunker contract: concatenating
the chunk texts preserves every non-whitespace character of the input in
order (overlap may duplicate content but none is lost), the `chunk_index`
values are exactly the sequence `0..N-1`, and empty input yields an empty
chunk sequence rather than an error. -/
theorem c8_chunker_contract (size ov mn mx : Nat) (text : Str) :
    (List.Sublist (nws text)
        (nws (((recursiveChunk size ov text).map DocChunk.text).flatten))
      ∧ (recursiveChunk size ov text).map DocChunk.chunk_index
          = List.range (recursiveChunk size ov text).length
      ∧ recursiveChunk size ov [] = [])
    ∧ (List.Sublist (nws text)
        (nws (((sentenceChunk size ov text).map DocChunk.text).flatten))
      ∧ (sentenceChunk size ov text).map DocChunk.chunk_index
          = List.range (sentenceChunk size ov text).length
      ∧ sentenceChunk size ov [] = [])
    ∧ (List.Sublist (nws text)
        (nws (((semanticChunk mn mx text).map DocChunk.text).flatten))
      ∧ (semanticChunk mn mx text).map DocChunk.chunk_index
          = List.range (semanticChunk mn mx text).length
      ∧ semanticChunk mn mx [] = []) :=
  ⟨⟨recursiveChunk_reconstructs size ov text, recursiveChunk_idx size ov text,
      recursiveChunk_empty size ov⟩,
    ⟨sentenceChunk_reconstructs size ov text, sentenceChunk_idx size ov text,
      sentenceChunk_empty size ov⟩,
    ⟨semanticChunk_reconstructs mn mx text, semanticChunk_idx mn mx text,
      semanticChunk_empty mn mx⟩⟩
